import Mathlib

/-!
Shallow embedding of the tokenise-eu/tokenise-eth security-token ledger.

The primary source is the ERC-884 style token contract in
src/unnamed/part_008 (a SecurityToken with mint, transfer, transferFrom,
masterTransfer, burn, addVerified, removeVerified, updateVerified,
cancelAndReissue, freeze, freezeSuper, lock and the read-only queries),
together with its ERC-20 base contracts BasicToken, StandardToken and
MintableToken whose code is reproduced in src/docs/Token.md, and the
SecurityController in src/contracts/individual/controller/SecurityController.sol.

Solidity 0.4.25 semantics that matter here and how they are modelled:
  - uint256 arithmetic outside SafeMath wraps modulo 2^256 (wsub below);
  - SafeMath add and sub revert on overflow and underflow (safeAdd);
  - a require or assert failure, and an out-of-range array access, revert
    the whole call, so a state-mutating entry point is a function
    St -> Option St, where none means the call reverted and the pre-state
    is kept unchanged (atomic rollback);
  - mappings are total functions defaulting to zero, updated pointwise;
  - the dynamic array shareholders is a Lean list; shareholders.push is
    an append returning the new length, assignment to a slot is List.set
    guarded by the bounds check that the EVM performs, and
    shareholders.length-- drops the last entry;
  - addresses are 160-bit values and identity hashes are bytes32 values;
    both are modelled as Nat, with 0 playing the role of the zero
    address and of ZERO_BYTES;
  - msg.sender based access control (onlyOwner) is abstracted away: every
    modelled call is a call by the party allowed to make it, since all the
    claims under study quantify over administrator calls or over arbitrary
    callers of the unrestricted entry points.
-/

namespace Tokenise

/-- 2 ^ 256, the modulus of the EVM uint256 type. -/
def W : Nat := 2 ^ 256

/-- 2 ^ 160, the size of the EVM address space. -/
def A160 : Nat := 2 ^ 160

abbrev Addr := Nat
abbrev Hash := Nat

/-- Pointwise update of a Solidity mapping. -/
def upd {β : Type} (f : Nat → β) (a : Nat) (b : β) : Nat → β :=
  fun x => if x = a then b else f x

/-- Wrapping uint256 subtraction, the plain minus of Solidity 0.4. -/
def wsub (a b : Nat) : Nat := (a % W + (W - b % W)) % W

/-- SafeMath add: reverts (none) on uint256 overflow. -/
def safeAdd (a b : Nat) : Option Nat := if a + b < W then some (a + b) else none

/-- The full storage of the SecurityToken contract (src/unnamed/part_008)
including the storage its ERC-20 base contracts contribute
(src/docs/Token.md: BasicToken.balances, StandardToken.allowed,
BasicToken.totalSupply, MintableToken.mintingFinished).
The two fields issuedTotal and burnedTotal are ghost accounting used only
to state the conservation claim: issuedTotal accumulates every minted
amount and burnedTotal every burned amount; the contract itself stores
neither. -/
structure St where
  verified : Addr → Hash
  cancellations : Addr → Addr
  holderIndices : Addr → Nat
  locked : Addr → Bool
  shareholders : List Addr
  frozen : Bool
  closed : Bool
  mintingFinished : Bool
  balances : Addr → Nat
  allowed : Addr → Addr → Nat
  totalSupply : Nat
  issuedTotal : Nat
  burnedTotal : Nat

/-- Freshly constructed contract: every mapping zero, flags false,
no shareholders, zero supply. -/
def initSt : St where
  verified := fun _ => 0
  cancellations := fun _ => 0
  holderIndices := fun _ => 0
  locked := fun _ => false
  shareholders := []
  frozen := false
  closed := false
  mintingFinished := false
  balances := fun _ => 0
  allowed := fun _ _ => 0
  totalSupply := 0
  issuedTotal := 0
  burnedTotal := 0

/-! Read-only queries of part_008. None of them reads the closed flag. -/

/-- part_008 isVerified: the address has a non-zero hash on record. -/
def isVerified (s : St) (a : Addr) : Bool := s.verified a != 0

/-- part_008 isHolder: the address has a non-zero shareholder index. -/
def isHolder (s : St) (a : Addr) : Bool := s.holderIndices a != 0

/-- part_008 hasHash: false on the zero address, otherwise compares the
stored hash. A pure function of the state: it cannot mutate anything. -/
def hasHash (s : St) (addr : Addr) (h : Hash) : Bool :=
  if addr = 0 then false else s.verified addr == h

/-- The hasHash variant of src/contracts/SecurityToken.sol, which instead
runs require(addr != ZERO_ADDRESS) and therefore reverts on the zero
address. -/
def hasHashV2 (s : St) (addr : Addr) (h : Hash) : Option Bool :=
  if addr = 0 then none else some (s.verified addr == h)

/-- part_008 isSuperseded. -/
def isSuperseded (s : St) (a : Addr) : Bool := s.cancellations a != 0

/-- part_008 isLocked. -/
def isLocked (s : St) (a : Addr) : Bool := s.locked a

/-- part_008 holderCount. -/
def holderCount (s : St) : Nat := s.shareholders.length

/-- part_008 holderAt: reverts (none) when the index is out of range. -/
def holderAt (s : St) (i : Nat) : Option Addr := s.shareholders.get? i

/-- part_008 findCurrentFor follows the cancellations chain recursively
until it hits an address with no cancellation record. The Solidity
function has no fuel; the fuel argument here only majorises the
recursion depth, and the theorems below show that in reachable states a
finite fuel suffices and the result is fuel-independent beyond it. -/
def findCurrentFor (c : Addr → Addr) : Nat → Addr → Addr
  | 0, a => a
  | n + 1, a => if c a = 0 then a else findCurrentFor c n (c a)

/-- part_008 getCurrentFor, delegating to findCurrentFor. -/
def getCurrentFor (s : St) (fuel : Nat) (a : Addr) : Addr :=
  findCurrentFor s.cancellations fuel a

/-! Internal shareholder-index maintenance of part_008. -/

/-- part_008 updateShareholders: if the address has index zero, push it
onto the shareholders array and record the returned new length as its
(one-based) index. -/
def updateShareholders (s : St) (addr : Addr) : St :=
  if s.holderIndices addr = 0 then
    { s with
      shareholders := s.shareholders ++ [addr]
      holderIndices := upd s.holderIndices addr (s.shareholders.length + 1) }
  else s

/-- part_008 pruneShareholders. balance := balances[addr] - value uses the
wrapping minus; when it is zero the address is removed by swapping the
last shareholder into its slot and truncating. holderIndices[addr] - 1
and shareholders.length - 1 also wrap, and the EVM array accesses revert
(none) when the resulting index is out of range. -/
def pruneShareholders (s : St) (addr : Addr) (value : Nat) : Option St :=
  let balance := wsub (s.balances addr) value
  if 0 < balance then some s
  else
    let holderIndex := wsub (s.holderIndices addr) 1
    let lastIndex := wsub s.shareholders.length 1
    match s.shareholders.get? lastIndex with
    | none => none
    | some lastHolder =>
      if holderIndex < s.shareholders.length then
        some { s with
          shareholders := (s.shareholders.set holderIndex lastHolder).dropLast
          holderIndices := upd (upd s.holderIndices lastHolder (s.holderIndices addr)) addr 0 }
      else none

/-! The ERC-20 base operations, from the BasicToken, StandardToken and
MintableToken contracts reproduced in src/docs/Token.md. -/

/-- BasicToken.transfer (src/docs/Token.md): require to be non-zero and
the value covered by the sender balance, then SafeMath-move the value. -/
def basicTransfer (s : St) (sender dst : Addr) (value : Nat) : Option St :=
  if dst = 0 then none
  else if s.balances sender < value then none
  else
    let b1 := upd s.balances sender (s.balances sender - value)
    match safeAdd (b1 dst) value with
    | none => none
    | some bTo => some { s with balances := upd b1 dst bTo }

/-- StandardToken.transferFrom (src/docs/Token.md): additionally checks
and decrements the caller allowance of the source account. -/
def stdTransferFrom (s : St) (caller srcA dst : Addr) (value : Nat) : Option St :=
  if dst = 0 then none
  else if s.balances srcA < value then none
  else if s.allowed srcA caller < value then none
  else
    let b1 := upd s.balances srcA (s.balances srcA - value)
    match safeAdd (b1 dst) value with
    | none => none
    | some bTo =>
      some { s with
        balances := upd b1 dst bTo
        allowed := upd s.allowed srcA (upd (s.allowed srcA) caller (s.allowed srcA caller - value)) }

/-- MintableToken.mint (src/docs/Token.md): onlyOwner canMint, SafeMath
adds the amount to the total supply and to the receiver balance.
Also accumulates the issuedTotal ghost counter. -/
def mintBase (s : St) (dst : Addr) (amount : Nat) : Option St :=
  if s.mintingFinished then none
  else
    match safeAdd s.totalSupply amount with
    | none => none
    | some ts =>
      match safeAdd (s.balances dst) amount with
      | none => none
      | some bTo =>
        some { s with
          totalSupply := ts
          balances := upd s.balances dst bTo
          issuedTotal := s.issuedTotal + amount }

/-- Modelled from the spec: the internal burn of the individual ERC-20
base called by part_008 as super.burn is not under src/ (only the later
revision in src/docs/Token.md line 486 is shown, as ERC20.burn with an
underscore). Per the spec, burn requires the amount to be covered by the
account balance, then decrements the balance and the total supply; the
SafeMath sub on the total supply also reverts if the amount exceeds it,
and the Token.md code requires a non-zero account. Also accumulates the
burnedTotal ghost counter. -/
def burnBase (s : St) (acct : Addr) (amount : Nat) : Option St :=
  if acct = 0 then none
  else if s.balances acct < amount then none
  else if s.totalSupply < amount then none
  else
    some { s with
      totalSupply := s.totalSupply - amount
      balances := upd s.balances acct (s.balances acct - amount)
      burnedTotal := s.burnedTotal + amount }

/-- Modelled from the spec: the internal masterTransfer of the individual
ERC-20 base called by part_008 as super.masterTransfer is not under
src/. Per the spec, masterTransfer employs the basic balance check and
record keeping of transfer but none of the allowance, lock or freeze
checks: it requires the amount to be covered by the source balance and
SafeMath-moves it. -/
def masterTransferBase (s : St) (srcA dst : Addr) (amount : Nat) : Option St :=
  if s.balances srcA < amount then none
  else
    let b1 := upd s.balances srcA (s.balances srcA - amount)
    match safeAdd (b1 dst) amount with
    | none => none
    | some bTo => some { s with balances := upd b1 dst bTo }

/-! The guarded entry points of part_008. -/

/-- part_008 mint: onlyOwner canMint isNotClosed isVerifiedAddress(to),
then updateShareholders(to) and super.mint. -/
def mint (s : St) (dst : Addr) (amount : Nat) : Option St :=
  if s.mintingFinished then none
  else if s.closed then none
  else if s.verified dst = 0 then none
  else mintBase (updateShareholders s dst) dst amount

/-- part_008 transfer: isNotFrozen, isNotLocked(sender), isNotLocked(to),
isVerifiedAddress(to), then updateShareholders(to),
pruneShareholders(sender, value), super.transfer. -/
def transfer (s : St) (sender dst : Addr) (value : Nat) : Option St :=
  if s.frozen then none
  else if s.locked sender then none
  else if s.locked dst then none
  else if s.verified dst = 0 then none
  else
    match pruneShareholders (updateShareholders s dst) sender value with
    | none => none
    | some s2 => basicTransfer s2 sender dst value

/-- part_008 transferFrom: same guards as transfer on the source and
receiver, then super.transferFrom which also spends the allowance of the
caller. -/
def transferFrom (s : St) (caller srcA dst : Addr) (value : Nat) : Option St :=
  if s.frozen then none
  else if s.locked srcA then none
  else if s.locked dst then none
  else if s.verified dst = 0 then none
  else
    match pruneShareholders (updateShareholders s dst) srcA value with
    | none => none
    | some s2 => stdTransferFrom s2 caller srcA dst value

/-- part_008 masterTransfer: onlyOwner isNotClosed isVerifiedAddress(to),
no freeze or lock checks, then the same record keeping as transfer and
the unchecked administrative balance move. -/
def masterTransfer (s : St) (srcA dst : Addr) (amount : Nat) : Option St :=
  if s.closed then none
  else if s.verified dst = 0 then none
  else
    match pruneShareholders (updateShareholders s dst) srcA amount with
    | none => none
    | some s2 => masterTransferBase s2 srcA dst amount

/-- part_008 burn: onlyOwner isNotClosed, then pruneShareholders and
super.burn. -/
def burn (s : St) (srcA : Addr) (amount : Nat) : Option St :=
  if s.closed then none
  else
    match pruneShareholders s srcA amount with
    | none => none
    | some s1 => burnBase s1 srcA amount

/-- part_008 addVerified: onlyOwner isNotClosed isNotCancelled(addr),
then requires a non-zero address, a non-zero hash, and that the address
is not yet verified. The first check records that the addr argument has
the 160-bit Solidity address type, so wider values denote no real call. -/
def addVerified (s : St) (addr : Addr) (h : Hash) : Option St :=
  if A160 ≤ addr then none
  else if s.closed then none
  else if s.cancellations addr ≠ 0 then none
  else if addr = 0 then none
  else if h = 0 then none
  else if s.verified addr ≠ 0 then none
  else some { s with verified := upd s.verified addr h }

/-- part_008 removeVerified: onlyOwner isNotClosed, requires a zero
balance, then clears the hash if one is present (silent no-op
otherwise). -/
def removeVerified (s : St) (addr : Addr) : Option St :=
  if s.closed then none
  else if s.balances addr ≠ 0 then none
  else if s.verified addr ≠ 0 then some { s with verified := upd s.verified addr 0 }
  else some s

/-- part_008 updateVerified: onlyOwner isNotClosed
isVerifiedAddress(addr), requires a non-zero hash, then replaces the
stored hash when it differs (silent no-op otherwise). -/
def updateVerified (s : St) (addr : Addr) (h : Hash) : Option St :=
  if s.closed then none
  else if s.verified addr = 0 then none
  else if h = 0 then none
  else if s.verified addr ≠ h then some { s with verified := upd s.verified addr h }
  else some s

/-- part_008 cancelAndReissue: onlyOwner isNotClosed
isShareholder(original) isNotShareholder(replacement)
isVerifiedAddress(replacement). Clears the original hash, records the
cancellation, writes the replacement into the original shareholder slot
(the array write reverts if holderIndices[original] - 1 is out of
range), moves the reverse index, overwrites the replacement balance with
the original one and zeroes the original balance. No freeze or lock
check appears anywhere in it. -/
def cancelAndReissue (s : St) (original replacement : Addr) : Option St :=
  if s.closed then none
  else if s.holderIndices original = 0 then none
  else if s.holderIndices replacement ≠ 0 then none
  else if s.verified replacement = 0 then none
  else
    let holderIndex := wsub (s.holderIndices original) 1
    if holderIndex < s.shareholders.length then
      some { s with
        verified := upd s.verified original 0
        cancellations := upd s.cancellations original replacement
        shareholders := s.shareholders.set holderIndex replacement
        holderIndices := upd (upd s.holderIndices replacement (s.holderIndices original)) original 0
        balances := upd (upd s.balances replacement (s.balances original)) original 0 }
    else none

/-- part_008 freeze: onlyOwner isNotClosed, toggles the global frozen
flag and returns the new value. -/
def freeze (s : St) : Option (St × Bool) :=
  if s.closed then none
  else if !s.frozen then some ({ s with frozen := true }, true)
  else some ({ s with frozen := false }, false)

/-- part_008 freezeSuper: onlyOwner isNotClosed, sets frozen and closed,
the terminal migration transition. -/
def freezeSuper (s : St) : Option St :=
  if s.closed then none
  else some { s with frozen := true, closed := true }

/-- The events part_008 lock can emit. Lock is documented in part_008 as
the event for an address being locked, Unlock as the event for an
address being unlocked. -/
inductive LockEvent where
  | lockEvt (a : Addr)
  | unlockEvt (a : Addr)
deriving DecidableEq

/-- part_008 lock: onlyOwner isNotClosed. Toggles the per-address lock
flag and returns the new value. Note the emissions of the source: when
the address was locked it unlocks and emits Lock, when it was unlocked
it locks and emits Unlock. -/
def lock (s : St) (addr : Addr) : Option (St × LockEvent × Bool) :=
  if s.closed then none
  else if s.locked addr then
    some ({ s with locked := upd s.locked addr false }, .lockEvt addr, false)
  else
    some ({ s with locked := upd s.locked addr true }, .unlockEvt addr, true)

/-- StandardToken.approve (src/docs/Token.md): overwrite semantics. -/
def approve (s : St) (caller spender : Addr) (value : Nat) : St :=
  { s with allowed := upd s.allowed caller (upd (s.allowed caller) spender value) }

/-- StandardToken.increaseApproval (src/docs/Token.md). -/
def increaseApproval (s : St) (caller spender : Addr) (added : Nat) : Option St :=
  match safeAdd (s.allowed caller spender) added with
  | none => none
  | some v => some { s with allowed := upd s.allowed caller (upd (s.allowed caller) spender v) }

/-- StandardToken.decreaseApproval (src/docs/Token.md): clamps at zero
instead of reverting. -/
def decreaseApproval (s : St) (caller spender : Addr) (subtracted : Nat) : St :=
  let oldValue := s.allowed caller spender
  if oldValue < subtracted then
    { s with allowed := upd s.allowed caller (upd (s.allowed caller) spender 0) }
  else
    { s with allowed := upd s.allowed caller (upd (s.allowed caller) spender (oldValue - subtracted)) }

/-- MintableToken.finishMinting (src/docs/Token.md): onlyOwner canMint. -/
def finishMinting (s : St) : Option St :=
  if s.mintingFinished then none else some { s with mintingFinished := true }

/-! The state machine: one step per state-mutating entry point. -/

/-- One state-mutating call to the token contract, with its arguments.
msg.sender appears only where the contract logic reads it. -/
inductive Op where
  | mint (dst : Addr) (amount : Nat)
  | transfer (sender dst : Addr) (value : Nat)
  | transferFrom (caller srcA dst : Addr) (value : Nat)
  | masterTransfer (srcA dst : Addr) (amount : Nat)
  | burn (srcA : Addr) (amount : Nat)
  | addVerified (addr : Addr) (h : Hash)
  | removeVerified (addr : Addr)
  | updateVerified (addr : Addr) (h : Hash)
  | cancelAndReissue (original replacement : Addr)
  | freeze
  | freezeSuper
  | lock (addr : Addr)
  | approve (caller spender : Addr) (value : Nat)
  | increaseApproval (caller spender : Addr) (added : Nat)
  | decreaseApproval (caller spender : Addr) (subtracted : Nat)
  | finishMinting

/-- Execute one call: none is a revert, leaving no successor state. -/
def exec (op : Op) (s : St) : Option St :=
  match op with
  | .mint dst amount => mint s dst amount
  | .transfer sender dst value => transfer s sender dst value
  | .transferFrom caller srcA dst value => transferFrom s caller srcA dst value
  | .masterTransfer srcA dst amount => masterTransfer s srcA dst amount
  | .burn srcA amount => burn s srcA amount
  | .addVerified addr h => addVerified s addr h
  | .removeVerified addr => removeVerified s addr
  | .updateVerified addr h => updateVerified s addr h
  | .cancelAndReissue original replacement => cancelAndReissue s original replacement
  | .freeze => (freeze s).map Prod.fst
  | .freezeSuper => freezeSuper s
  | .lock addr => (lock s addr).map Prod.fst
  | .approve caller spender value => some (approve s caller spender value)
  | .increaseApproval caller spender added => increaseApproval s caller spender added
  | .decreaseApproval caller spender subtracted => some (decreaseApproval s caller spender subtracted)
  | .finishMinting => finishMinting s

/-- Execute a list of calls, all of which must succeed. -/
def execTrace : List Op → St → Option St
  | [], s => some s
  | op :: t, s =>
    match exec op s with
    | none => none
    | some s1 => execTrace t s1

/-- States reachable from the fresh contract by successful calls drawn
from the allowed subset of entry points. -/
inductive ReachableFrom (allow : Op → Bool) : St → Prop where
  | init : ReachableFrom allow initSt
  | step {s s' : St} (op : Op) : ReachableFrom allow s → allow op = true →
      exec op s = some s' → ReachableFrom allow s'

/-- States reachable by arbitrary successful calls. -/
abbrev Reachable (s : St) : Prop := ReachableFrom (fun _ : Op => true) s

/-- The entry points named by the conservation claim are mint, transfer,
transferFrom and burn; this filter additionally keeps every other entry
point except cancelAndReissue, which the claim does not cover (and which
can indeed destroy a balance stranded by the index bug, see the
shareholder-index counterexample). -/
def noCR : Op → Bool
  | Op.cancelAndReissue _ _ => false
  | _ => true

/-! The inductive invariant of the reachable states. -/

/-- Well-formedness of the shareholder index: every array slot i holds an
address whose recorded index is i + 1, every address with a non-zero
recorded index sits in the corresponding slot, and every array entry is
a non-zero 160-bit address. -/
def WfIndex (s : St) : Prop :=
  (∀ i x, s.shareholders.get? i = some x → s.holderIndices x = i + 1) ∧
  (∀ a, s.holderIndices a ≠ 0 → s.shareholders.get? (s.holderIndices a - 1) = some a) ∧
  (∀ a ∈ s.shareholders, 0 < a ∧ a < A160)

/-- Well-formedness of the identity registry: a verified address has no
cancellation record (addVerified refuses cancelled addresses and
cancelAndReissue unverifies the address it cancels), and verified
addresses are non-zero 160-bit values. -/
def WfVer (s : St) : Prop :=
  (∀ a, s.verified a ≠ 0 → s.cancellations a = 0) ∧
  (∀ a, s.verified a ≠ 0 → 0 < a ∧ a < A160)

/-- Every cancellation chain reaches an address with no cancellation
record after finitely many hops. -/
def ChainTerm (s : St) : Prop :=
  ∀ a, ∃ n, s.cancellations (s.cancellations^[n] a) = 0

/-- The inductive invariant bundle. -/
def Inv (s : St) : Prop := WfIndex s ∧ WfVer s ∧ ChainTerm s

/-! Conservation: sum of balances versus the ghost issued and burned
totals. The sum of a balance map is taken over any duplicate-free list
covering its support. -/

/-- Sum of the balances of the addresses in L. -/
def sumOver (L : List Addr) (f : Addr → Nat) : Nat := (L.map f).sum

/-- Insert an address into a support list if it is missing. -/
def addSupp (a : Addr) (L : List Addr) : List Addr := if a ∈ L then L else a :: L

/-- The conservation invariant: the burned total plus the live supply is
the issued total, and some duplicate-free support list sums the balances
to the live supply. -/
def Conserved (s : St) : Prop :=
  s.burnedTotal + s.totalSupply = s.issuedTotal ∧
  ∃ L : List Addr, L.Nodup ∧ (∀ a, s.balances a ≠ 0 → a ∈ L) ∧
    sumOver L s.balances = s.totalSupply

/-! Concrete traces and states used by the claim theorems, their
witnesses and their counterexamples. -/

/-- addVerified(1, 5) then mint(1, 0): the failing input of the
shareholder-index consistency claim. -/
def c1Trace : List Op := [Op.addVerified 1 5, Op.mint 1 0]

/-- The state the c1Trace reaches. -/
def c1St : St := (execTrace c1Trace initSt).getD initSt

/-- Issue 3 to 1, transfer 1 of them to 2, burn that 1 from 2. -/
def c2Trace : List Op := [Op.addVerified 1 5, Op.mint 1 3, Op.addVerified 2 7,
  Op.transfer 1 2 1, Op.burn 2 1]

/-- The state the c2Trace reaches. -/
def c2St : St := (execTrace c2Trace initSt).getD initSt

/-- Two verified addresses, 1 holding 3 shares and 2 empty. -/
def c3Trace : List Op := [Op.addVerified 1 5, Op.mint 1 3, Op.addVerified 2 7]

/-- The state the c3Trace reaches. -/
def c3St : St := (execTrace c3Trace initSt).getD initSt

/-- Cancel 1 in favour of 2, then empty 2 and remove its verification. -/
def c4Trace : List Op := [Op.addVerified 1 5, Op.mint 1 1, Op.addVerified 2 7,
  Op.cancelAndReissue 1 2, Op.burn 2 1, Op.removeVerified 2]

/-- The state the c4Trace reaches. -/
def c4St : St := (execTrace c4Trace initSt).getD initSt

/-- The closed state produced by freezeSuper on the fresh contract. -/
def c5St : St := (exec Op.freezeSuper initSt).getD initSt

/-- A verified address 1 that holds nothing and is not in the index. -/
def c7Trace : List Op := [Op.addVerified 1 5]

/-- The state the c7Trace reaches. -/
def c7St : St := (execTrace c7Trace initSt).getD initSt

/-- The closed state c5St after one further successful call (approve is
not guarded by the closed flag). -/
def c5St2 : St := (exec (Op.approve 1 2 3) c5St).getD initSt

/-- The same state with the closed flag cleared, for comparing the
read-only queries of a closed ledger against an open view. -/
def openView (s : St) : St := { s with closed := false }

/-! The SecurityController
(src/contracts/individual/controller/SecurityController.sol). Only the
lifecycle flags matter to the claims under study; the deployedToken and
manager address fields and the Ownable owner are abstracted away exactly
like msg.sender on the token. -/

/-- Controller lifecycle state. -/
structure Ctrl where
  deployed : Bool
  migrated : Bool
  closed : Bool

/-- Raw KYC info strings, opaque to the contracts: only the fingerprint
kec(info) ever reaches the ledger. -/
abbrev Info := Nat

/-- SecurityController.migrate (lines 155-161): onlyOwner notClosed
isDeployed notMigrated; computes the fingerprint of the raw data with
keccak256(abi.encodePacked(data)) - modelled as an arbitrary function
kec - calls addVerified on the token, and if the balance is positive
additionally calls mint. A revert in either token call aborts the whole
transaction (none), leaving both the controller and the ledger
unchanged. -/
def ctrlMigrate (kec : Info → Hash) (c : Ctrl) (l : St) (addr : Addr)
    (dat : Info) (balance : Nat) : Option (Ctrl × St) :=
  if c.closed then none
  else if c.deployed = false then none
  else if c.migrated then none
  else
    match addVerified l addr (kec dat) with
    | none => none
    | some l1 =>
      if 0 < balance then
        match mint l1 addr balance with
        | none => none
        | some l2 => some (c, l2)
      else some (c, l1)

/-- The fingerprint function of the C10 witness. -/
def c10Kec : Info → Hash := fun d => d + 1

/-- The controller state of the C10 witness: deployed, not migrated, not
closed. -/
def c10Ctrl : Ctrl := ⟨true, false, false⟩

/-! Theorems. -/

theorem reachable_of_execTrace {allow : Op → Bool} :
    ∀ (t : List Op) {s s' : St}, (∀ op ∈ t, allow op = true) →
      ReachableFrom allow s → execTrace t s = some s' → ReachableFrom allow s'
  | [], s, s', _, hs, h => by
      simp only [execTrace] at h
      exact (Option.some.inj h) ▸ hs
  | op :: t, s, s', hall, hs, h => by
      simp only [execTrace] at h
      cases hop : exec op s with
      | none => rw [hop] at h; exact absurd h (by simp)
      | some s1 =>
        rw [hop] at h
        exact reachable_of_execTrace t (fun o ho => hall o (List.mem_cons_of_mem _ ho))
          (ReachableFrom.step op hs (hall op (List.mem_cons_self _ _)) hop) h

/-! Basic lemmas about upd, wsub and list access. -/

theorem upd_same {β : Type} (f : Nat → β) (a : Nat) (b : β) : upd f a b a = b := by
  simp [upd]

theorem upd_other {β : Type} (f : Nat → β) (a : Nat) (b : β) {x : Nat} (h : x ≠ a) :
    upd f a b x = f x := by
  simp [upd, h]

theorem a160_lt_w : A160 < W - 1 := by
  unfold A160 W
  norm_num

theorem a160_add2_lt_w : A160 + 2 < W := by
  unfold A160 W
  norm_num

theorem w_pos : 0 < W := by unfold W; positivity

theorem wsub_self (a : Nat) : wsub a a = 0 := by
  unfold wsub
  have h : a % W < W := Nat.mod_lt _ w_pos
  rw [Nat.add_sub_cancel' (Nat.le_of_lt h)]
  exact Nat.mod_self W

theorem wsub_zero_one : wsub 0 1 = W - 1 := by
  unfold wsub W
  norm_num

theorem wsub_one {n : Nat} (h0 : 0 < n) (hW : n < W) : wsub n 1 = n - 1 := by
  unfold wsub
  rw [Nat.mod_eq_of_lt hW, Nat.mod_eq_of_lt (show 1 < W by unfold W; norm_num)]
  have h1 : n + (W - 1) = (n - 1) + W := by omega
  rw [h1, Nat.add_mod_right, Nat.mod_eq_of_lt (by omega)]

theorem lget_some_lt {α : Type} {l : List α} {i : Nat} {x : α}
    (h : l.get? i = some x) : i < l.length := by
  by_contra hc
  rw [List.get?_eq_none.2 (by omega)] at h
  exact absurd h (by simp)

theorem lget_lt_some {α : Type} {l : List α} {i : Nat} (h : i < l.length) :
    ∃ x, l.get? i = some x := by
  rw [List.get?_eq_get h]
  exact ⟨_, rfl⟩

theorem lget_mem {α : Type} {l : List α} {i : Nat} {x : α}
    (h : l.get? i = some x) : x ∈ l :=
  List.get?_mem h

theorem lset_length {α : Type} (l : List α) (i : Nat) (a : α) :
    (l.set i a).length = l.length := by
  simp

theorem lget_set_same {α : Type} {l : List α} {i : Nat} (a : α) (h : i < l.length) :
    (l.set i a).get? i = some a := by
  rw [List.get?_set_eq]
  rw [List.get?_eq_get h]
  simp

theorem lget_set_other {α : Type} (l : List α) {i j : Nat} (a : α) (h : i ≠ j) :
    (l.set i a).get? j = l.get? j := by
  simp [List.get?_eq_getElem?, List.getElem?_set_ne h]

theorem lget_append_lt {α : Type} (l : List α) (a : α) {i : Nat} (h : i < l.length) :
    (l ++ [a]).get? i = l.get? i :=
  List.get?_append h

theorem lget_append_len {α : Type} (l : List α) (a : α) :
    (l ++ [a]).get? l.length = some a := by
  rw [List.get?_append_right (Nat.le_refl _)]
  simp

theorem ldropLast_get {α : Type} (l : List α) {i : Nat} (h : i + 1 < l.length) :
    l.dropLast.get? i = l.get? i := by
  rw [List.dropLast_eq_take]
  exact List.get?_take (by omega)

theorem ldropLast_mem {α : Type} {l : List α} {x : α} (h : x ∈ l.dropLast) : x ∈ l := by
  rw [List.dropLast_eq_take] at h
  exact List.mem_of_mem_take h

theorem lset_mem {α : Type} {l : List α} {i : Nat} {a x : α} (h : x ∈ l.set i a) :
    x ∈ l ∨ x = a := by
  rcases List.mem_or_eq_of_mem_set h with h1 | h1
  · exact Or.inl h1
  · exact Or.inr h1

theorem inv_init : Inv initSt := by
  refine ⟨⟨?_, ?_, ?_⟩, ⟨?_, ?_⟩, ?_⟩
  · intro i x h
    simp [initSt] at h
  · intro a h
    simp [initSt] at h
  · intro a h
    simp [initSt] at h
  · intro a h
    simp [initSt] at h
  · intro a h
    simp [initSt] at h
  · intro a
    exact ⟨0, rfl⟩

/-- The shareholders array of a well-formed state has at most 2 ^ 160
entries: its slots hold pairwise distinct 160-bit addresses. -/
theorem length_le_A160 {s : St} (hw : WfIndex s) : s.shareholders.length ≤ A160 := by
  obtain ⟨h1, _, h3⟩ := hw
  have hcard := Finset.card_le_card_of_injOn
    (f := fun i => (s.shareholders.get? i).getD 0)
    (s := Finset.range s.shareholders.length) (t := Finset.range A160) ?_ ?_
  · simpa using hcard
  · intro i hi
    rw [Finset.mem_range] at hi
    obtain ⟨x, hx⟩ := lget_lt_some hi
    show (s.shareholders.get? i).getD 0 ∈ Finset.range A160
    rw [hx]
    exact Finset.mem_range.2 (h3 x (lget_mem hx)).2
  · intro i hi j hj hij
    rw [Finset.mem_coe, Finset.mem_range] at hi hj
    obtain ⟨x, hx⟩ := lget_lt_some hi
    obtain ⟨y, hy⟩ := lget_lt_some hj
    have hij2 : (s.shareholders.get? i).getD 0 = (s.shareholders.get? j).getD 0 := hij
    rw [hx, hy] at hij2
    simp only [Option.getD_some] at hij2
    rw [← hij2] at hy
    have e1 := h1 i x hx
    have e2 := h1 j x hy
    omega

/-! Preservation of the index invariant by the internal maintenance
functions. -/

theorem wfIndex_updateShareholders {s : St} {a : Addr} (hw : WfIndex s)
    (h0 : 0 < a) (hA : a < A160) : WfIndex (updateShareholders s a) := by
  obtain ⟨h1, h2, h3⟩ := hw
  unfold updateShareholders
  split
  case isTrue hz =>
    refine ⟨?_, ?_, ?_⟩
    · intro i x hx
      dsimp only at hx ⊢
      by_cases hi : i < s.shareholders.length
      · rw [lget_append_lt _ _ hi] at hx
        have hxa : x ≠ a := by
          intro he
          rw [he] at hx
          rw [h1 i a hx] at hz
          omega
        rw [upd_other _ _ _ hxa]
        exact h1 i x hx
      · have hlen : i < s.shareholders.length + 1 := by
          have := lget_some_lt hx
          simpa using this
        have hi2 : i = s.shareholders.length := by omega
        rw [hi2, lget_append_len] at hx
        obtain rfl := Option.some.inj hx
        rw [upd_same]
        omega
    · intro b hb
      dsimp only at hb ⊢
      by_cases hba : b = a
      · subst hba
        rw [upd_same] at hb ⊢
        simpa using lget_append_len s.shareholders b
      · rw [upd_other _ _ _ hba] at hb ⊢
        have hx := h2 b hb
        rw [lget_append_lt _ _ (lget_some_lt hx)]
        exact hx
    · intro x hx
      dsimp only at hx
      rcases List.mem_append.1 hx with hmem | hmem
      · exact h3 x hmem
      · have : x = a := by simpa using hmem
        exact this ▸ ⟨h0, hA⟩
  case isFalse => exact ⟨h1, h2, h3⟩

theorem prune_some_fields {s s' : St} {addr : Addr} {v : Nat}
    (h : pruneShareholders s addr v = some s') :
    s'.verified = s.verified ∧ s'.cancellations = s.cancellations ∧
    s'.locked = s.locked ∧ s'.frozen = s.frozen ∧ s'.closed = s.closed ∧
    s'.mintingFinished = s.mintingFinished ∧ s'.balances = s.balances ∧
    s'.allowed = s.allowed ∧ s'.totalSupply = s.totalSupply ∧
    s'.issuedTotal = s.issuedTotal ∧ s'.burnedTotal = s.burnedTotal := by
  simp only [pruneShareholders] at h
  split at h
  next =>
    obtain rfl := Option.some.inj h
    exact ⟨rfl, rfl, rfl, rfl, rfl, rfl, rfl, rfl, rfl, rfl, rfl⟩
  next =>
    split at h
    next => exact absurd h (by simp)
    next lastHolder heq =>
      split at h
      next =>
        obtain rfl := Option.some.inj h
        exact ⟨rfl, rfl, rfl, rfl, rfl, rfl, rfl, rfl, rfl, rfl, rfl⟩
      next => exact absurd h (by simp)

theorem wfIndex_prune {s s' : St} {addr : Addr} {v : Nat} (hw : WfIndex s)
    (h : pruneShareholders s addr v = some s') : WfIndex s' := by
  obtain ⟨h1, h2, h3⟩ := hw
  have hlenA : s.shareholders.length ≤ A160 := length_le_A160 ⟨h1, h2, h3⟩
  simp only [pruneShareholders] at h
  split at h
  next =>
    obtain rfl := Option.some.inj h
    exact ⟨h1, h2, h3⟩
  next =>
    split at h
    next => exact absurd h (by simp)
    next lastHolder heq =>
      split at h
      next hidx =>
        obtain rfl := Option.some.inj h
        have hlen1 : 0 < s.shareholders.length := by
          rcases Nat.eq_zero_or_pos s.shareholders.length with h0 | h0
          · rw [List.length_eq_zero] at h0
            rw [h0] at heq
            exact absurd heq (by simp)
          · exact h0
        have hlenW : s.shareholders.length < W := by
          have := a160_lt_w
          omega
        have hw1 : wsub s.shareholders.length 1 = s.shareholders.length - 1 :=
          wsub_one hlen1 hlenW
        have hia : s.holderIndices addr ≠ 0 := by
          intro h0
          rw [h0, wsub_zero_one] at hidx
          have := a160_lt_w
          omega
        have ha2 := h2 addr hia
        have hiaL : s.holderIndices addr - 1 < s.shareholders.length := lget_some_lt ha2
        have hiaW : s.holderIndices addr < W := by omega
        have hwia : wsub (s.holderIndices addr) 1 = s.holderIndices addr - 1 :=
          wsub_one (by omega) hiaW
        rw [hw1] at heq
        have hlast : s.holderIndices lastHolder = s.shareholders.length := by
          have := h1 (s.shareholders.length - 1) lastHolder heq
          omega
        have hsetlen :
            ((s.shareholders.set (wsub (s.holderIndices addr) 1) lastHolder).dropLast).length
              = s.shareholders.length - 1 := by
          rw [List.length_dropLast, lset_length]
        by_cases hcase : lastHolder = addr
        · subst hcase
          have hiaeq : s.holderIndices lastHolder - 1 = s.shareholders.length - 1 := by
            omega
          refine ⟨?_, ?_, ?_⟩
          · intro i x hx
            dsimp only at hx ⊢
            have hi : i < s.shareholders.length - 1 := by
              have := lget_some_lt hx
              rw [hsetlen] at this
              exact this
            rw [ldropLast_get _ (by rw [lset_length]; omega)] at hx
            rw [lget_set_other _ _ (by omega)] at hx
            have hxa : x ≠ lastHolder := by
              intro he
              rw [he] at hx
              have := h1 i lastHolder hx
              omega
            rw [upd_other _ _ _ hxa, upd_other _ _ _ hxa]
            exact h1 i x hx
          · intro b hb
            dsimp only at hb ⊢
            by_cases hba : b = lastHolder
            · subst hba
              rw [upd_same] at hb
              exact absurd rfl hb
            · rw [upd_other _ _ _ hba, upd_other _ _ _ hba] at hb ⊢
              have hx := h2 b hb
              have hbl : s.holderIndices b - 1 ≠ s.shareholders.length - 1 := by
                intro he
                rw [he, heq] at hx
                exact hba (Option.some.inj hx).symm
              have hblt : s.holderIndices b - 1 < s.shareholders.length := lget_some_lt hx
              rw [ldropLast_get _ (by rw [lset_length]; omega)]
              rw [lget_set_other _ _ (by omega)]
              exact hx
          · intro x hx
            dsimp only at hx
            have hx2 := ldropLast_mem hx
            rcases lset_mem hx2 with hmem | hmem
            · exact h3 x hmem
            · exact hmem ▸ h3 lastHolder (lget_mem heq)
        · have hne2 : s.holderIndices addr - 1 ≠ s.shareholders.length - 1 := by
            intro he
            rw [← he] at heq
            rw [heq] at ha2
            exact hcase (Option.some.inj ha2)
          have hlt : s.holderIndices addr - 1 < s.shareholders.length - 1 := by omega
          refine ⟨?_, ?_, ?_⟩
          · intro i x hx
            dsimp only at hx ⊢
            have hi : i < s.shareholders.length - 1 := by
              have := lget_some_lt hx
              rw [hsetlen] at this
              exact this
            rw [ldropLast_get _ (by rw [lset_length]; omega)] at hx
            rw [hwia] at hx
            by_cases hieq : i = s.holderIndices addr - 1
            · rw [hieq] at hx
              rw [lget_set_same _ hiaL] at hx
              obtain rfl := Option.some.inj hx
              rw [upd_other _ _ _ hcase, upd_same, hieq]
              omega
            · rw [lget_set_other _ _ (fun he => hieq he.symm)] at hx
              have hxa : x ≠ addr := by
                intro he
                rw [he] at hx
                have := h1 i addr hx
                have := h1 (s.holderIndices addr - 1) addr ha2
                omega
              have hxl : x ≠ lastHolder := by
                intro he
                rw [he] at hx
                have := h1 i lastHolder hx
                omega
              rw [upd_other _ _ _ hxa, upd_other _ _ _ hxl]
              exact h1 i x hx
          · intro b hb
            dsimp only at hb ⊢
            by_cases hba : b = addr
            · subst hba
              rw [upd_same] at hb
              exact absurd rfl hb
            · rw [upd_other _ _ _ hba] at hb ⊢
              by_cases hbl : b = lastHolder
              · subst hbl
                rw [upd_same] at hb ⊢
                rw [ldropLast_get _ (by rw [lset_length]; omega), hwia]
                exact lget_set_same _ hiaL
              · rw [upd_other _ _ _ hbl] at hb ⊢
                have hx := h2 b hb
                have hbne : s.holderIndices b - 1 ≠ s.shareholders.length - 1 := by
                  intro he
                  rw [he, heq] at hx
                  exact hbl (Option.some.inj hx).symm
                have hblt : s.holderIndices b - 1 < s.shareholders.length := lget_some_lt hx
                have hbnei : s.holderIndices b - 1 ≠ s.holderIndices addr - 1 := by
                  intro he
                  rw [he] at hx
                  rw [ha2] at hx
                  exact hba (Option.some.inj hx).symm
                rw [ldropLast_get _ (by rw [lset_length]; omega), hwia]
                rw [lget_set_other _ _ (fun he => hbnei he.symm)]
                exact hx
          · intro x hx
            dsimp only at hx
            have hx2 := ldropLast_mem hx
            rcases lset_mem hx2 with hmem | hmem
            · exact h3 x hmem
            · exact hmem ▸ h3 lastHolder (lget_mem heq)
      next => exact absurd h (by simp)

/-! Preservation of the cancellation-chain termination invariant. -/

theorem chainTerm_upd {c : Addr → Addr} (hT : ∀ a, ∃ n, c (c^[n] a) = 0)
    {orig repl : Addr} (hro : repl ≠ orig) (hr0 : c repl = 0) :
    ∀ a, ∃ n, (upd c orig repl) ((upd c orig repl)^[n] a) = 0 := by
  have horig : (upd c orig repl) ((upd c orig repl)^[1] orig) = 0 := by
    have h1 : (upd c orig repl)^[1] orig = repl := by
      rw [Function.iterate_one, upd_same]
    rw [h1, upd_other _ _ _ hro]
    exact hr0
  have key : ∀ n a, c (c^[n] a) = 0 →
      ∃ m, (upd c orig repl) ((upd c orig repl)^[m] a) = 0 := by
    intro n
    induction n with
    | zero =>
      intro a ha
      by_cases hao : a = orig
      · subst hao
        exact ⟨1, horig⟩
      · rw [Function.iterate_zero_apply] at ha
        refine ⟨0, ?_⟩
        rw [Function.iterate_zero_apply, upd_other _ _ _ hao]
        exact ha
    | succ k ih =>
      intro a ha
      by_cases hao : a = orig
      · subst hao
        exact ⟨1, horig⟩
      · by_cases hca : c a = 0
        · refine ⟨0, ?_⟩
          rw [Function.iterate_zero_apply, upd_other _ _ _ hao]
          exact hca
        · rw [Function.iterate_succ_apply] at ha
          obtain ⟨m, hm⟩ := ih (c a) ha
          refine ⟨m + 1, ?_⟩
          rw [Function.iterate_succ_apply, upd_other _ _ _ hao]
          exact hm
  intro a
  obtain ⟨n, hn⟩ := hT a
  exact key n a hn

/-! Transport of the invariant across states that agree on the fields it
mentions, and the per-operation field lemmas. -/

theorem inv_congr {s s' : St} (hsh : s'.shareholders = s.shareholders)
    (hhi : s'.holderIndices = s.holderIndices) (hv : s'.verified = s.verified)
    (hc : s'.cancellations = s.cancellations) (hI : Inv s) : Inv s' := by
  obtain ⟨hw, hver, hT⟩ := hI
  refine ⟨?_, ?_, ?_⟩
  · unfold WfIndex
    rw [hsh, hhi]
    exact hw
  · unfold WfVer
    rw [hv, hc]
    exact hver
  · unfold ChainTerm
    rw [hc]
    exact hT

theorem updateShareholders_fields (s : St) (a : Addr) :
    (updateShareholders s a).verified = s.verified ∧
    (updateShareholders s a).cancellations = s.cancellations ∧
    (updateShareholders s a).locked = s.locked ∧
    (updateShareholders s a).frozen = s.frozen ∧
    (updateShareholders s a).closed = s.closed ∧
    (updateShareholders s a).mintingFinished = s.mintingFinished ∧
    (updateShareholders s a).balances = s.balances ∧
    (updateShareholders s a).allowed = s.allowed ∧
    (updateShareholders s a).totalSupply = s.totalSupply ∧
    (updateShareholders s a).issuedTotal = s.issuedTotal ∧
    (updateShareholders s a).burnedTotal = s.burnedTotal := by
  unfold updateShareholders
  split <;> exact ⟨rfl, rfl, rfl, rfl, rfl, rfl, rfl, rfl, rfl, rfl, rfl⟩

theorem basicTransfer_some_fields {s s' : St} {sender dst : Addr} {value : Nat}
    (h : basicTransfer s sender dst value = some s') :
    s'.verified = s.verified ∧ s'.cancellations = s.cancellations ∧
    s'.holderIndices = s.holderIndices ∧ s'.shareholders = s.shareholders ∧
    s'.locked = s.locked ∧ s'.frozen = s.frozen ∧ s'.closed = s.closed ∧
    s'.mintingFinished = s.mintingFinished ∧ s'.allowed = s.allowed ∧
    s'.totalSupply = s.totalSupply ∧ s'.issuedTotal = s.issuedTotal ∧
    s'.burnedTotal = s.burnedTotal := by
  simp only [basicTransfer] at h
  split at h
  next => exact absurd h (by simp)
  next =>
    split at h
    next => exact absurd h (by simp)
    next =>
      split at h
      next => exact absurd h (by simp)
      next =>
        obtain rfl := Option.some.inj h
        exact ⟨rfl, rfl, rfl, rfl, rfl, rfl, rfl, rfl, rfl, rfl, rfl, rfl⟩

theorem stdTransferFrom_some_fields {s s' : St} {caller srcA dst : Addr} {value : Nat}
    (h : stdTransferFrom s caller srcA dst value = some s') :
    s'.verified = s.verified ∧ s'.cancellations = s.cancellations ∧
    s'.holderIndices = s.holderIndices ∧ s'.shareholders = s.shareholders ∧
    s'.locked = s.locked ∧ s'.frozen = s.frozen ∧ s'.closed = s.closed ∧
    s'.mintingFinished = s.mintingFinished ∧ s'.totalSupply = s.totalSupply ∧
    s'.issuedTotal = s.issuedTotal ∧ s'.burnedTotal = s.burnedTotal := by
  simp only [stdTransferFrom] at h
  split at h
  next => exact absurd h (by simp)
  next =>
    split at h
    next => exact absurd h (by simp)
    next =>
      split at h
      next => exact absurd h (by simp)
      next =>
        split at h
        next => exact absurd h (by simp)
        next =>
          obtain rfl := Option.some.inj h
          exact ⟨rfl, rfl, rfl, rfl, rfl, rfl, rfl, rfl, rfl, rfl, rfl⟩

theorem mintBase_some_fields {s s' : St} {dst : Addr} {amount : Nat}
    (h : mintBase s dst amount = some s') :
    s'.verified = s.verified ∧ s'.cancellations = s.cancellations ∧
    s'.holderIndices = s.holderIndices ∧ s'.shareholders = s.shareholders ∧
    s'.locked = s.locked ∧ s'.frozen = s.frozen ∧ s'.closed = s.closed ∧
    s'.mintingFinished = s.mintingFinished ∧ s'.allowed = s.allowed ∧
    s'.burnedTotal = s.burnedTotal := by
  simp only [mintBase] at h
  split at h
  next => exact absurd h (by simp)
  next =>
    split at h
    next => exact absurd h (by simp)
    next =>
      split at h
      next => exact absurd h (by simp)
      next =>
        obtain rfl := Option.some.inj h
        exact ⟨rfl, rfl, rfl, rfl, rfl, rfl, rfl, rfl, rfl, rfl⟩

theorem burnBase_some_fields {s s' : St} {acct : Addr} {amount : Nat}
    (h : burnBase s acct amount = some s') :
    s'.verified = s.verified ∧ s'.cancellations = s.cancellations ∧
    s'.holderIndices = s.holderIndices ∧ s'.shareholders = s.shareholders ∧
    s'.locked = s.locked ∧ s'.frozen = s.frozen ∧ s'.closed = s.closed ∧
    s'.mintingFinished = s.mintingFinished ∧ s'.allowed = s.allowed ∧
    s'.issuedTotal = s.issuedTotal := by
  simp only [burnBase] at h
  split at h
  next => exact absurd h (by simp)
  next =>
    split at h
    next => exact absurd h (by simp)
    next =>
      split at h
      next => exact absurd h (by simp)
      next =>
        obtain rfl := Option.some.inj h
        exact ⟨rfl, rfl, rfl, rfl, rfl, rfl, rfl, rfl, rfl, rfl⟩

theorem masterTransferBase_some_fields {s s' : St} {srcA dst : Addr} {amount : Nat}
    (h : masterTransferBase s srcA dst amount = some s') :
    s'.verified = s.verified ∧ s'.cancellations = s.cancellations ∧
    s'.holderIndices = s.holderIndices ∧ s'.shareholders = s.shareholders ∧
    s'.locked = s.locked ∧ s'.frozen = s.frozen ∧ s'.closed = s.closed ∧
    s'.mintingFinished = s.mintingFinished ∧ s'.allowed = s.allowed ∧
    s'.totalSupply = s.totalSupply ∧ s'.issuedTotal = s.issuedTotal ∧
    s'.burnedTotal = s.burnedTotal := by
  simp only [masterTransferBase] at h
  split at h
  next => exact absurd h (by simp)
  next =>
    split at h
    next => exact absurd h (by simp)
    next =>
      obtain rfl := Option.some.inj h
      exact ⟨rfl, rfl, rfl, rfl, rfl, rfl, rfl, rfl, rfl, rfl, rfl, rfl⟩

/-! Invariant preservation, operation by operation. -/

theorem inv_updateShareholders {s : St} {a : Addr} (hI : Inv s)
    (hva : s.verified a ≠ 0) : Inv (updateShareholders s a) := by
  obtain ⟨hw, ⟨hv1, hv2⟩, hT⟩ := hI
  have hb := hv2 a hva
  obtain ⟨f1, f2, _⟩ := updateShareholders_fields s a
  refine ⟨wfIndex_updateShareholders hw hb.1 hb.2, ?_, ?_⟩
  · unfold WfVer
    rw [f1, f2]
    exact ⟨hv1, hv2⟩
  · unfold ChainTerm
    rw [f2]
    exact hT

theorem inv_prune {s s' : St} {addr : Addr} {v : Nat} (hI : Inv s)
    (h : pruneShareholders s addr v = some s') : Inv s' := by
  obtain ⟨hw, ⟨hv1, hv2⟩, hT⟩ := hI
  obtain ⟨f1, f2, _⟩ := prune_some_fields h
  refine ⟨wfIndex_prune hw h, ?_, ?_⟩
  · unfold WfVer
    rw [f1, f2]
    exact ⟨hv1, hv2⟩
  · unfold ChainTerm
    rw [f2]
    exact hT

theorem inv_cancelAndReissue {s s' : St} {orig repl : Addr} (hI : Inv s)
    (h : cancelAndReissue s orig repl = some s') : Inv s' := by
  obtain ⟨⟨h1, h2, h3⟩, ⟨hv1, hv2⟩, hT⟩ := hI
  have hlenA : s.shareholders.length ≤ A160 := length_le_A160 ⟨h1, h2, h3⟩
  simp only [cancelAndReissue] at h
  split at h
  next => exact absurd h (by simp)
  next =>
    split at h
    next => exact absurd h (by simp)
    next ho =>
      split at h
      next => exact absurd h (by simp)
      next hr =>
        split at h
        next => exact absurd h (by simp)
        next hv =>
          split at h
          next hidx =>
            obtain rfl := Option.some.inj h
            rw [Decidable.not_not] at hr
            have hrb := hv2 repl hv
            have hror : repl ≠ orig := by
              intro he
              rw [he] at hr
              exact ho hr
            have ha2 := h2 orig ho
            have hiaL : s.holderIndices orig - 1 < s.shareholders.length := lget_some_lt ha2
            have hiaW : s.holderIndices orig < W := by
              have := a160_lt_w
              omega
            have hwia : wsub (s.holderIndices orig) 1 = s.holderIndices orig - 1 :=
              wsub_one (by omega) hiaW
            refine ⟨⟨?_, ?_, ?_⟩, ⟨?_, ?_⟩, ?_⟩
            · intro i x hx
              dsimp only at hx ⊢
              rw [hwia] at hx
              have hi : i < s.shareholders.length := by
                have := lget_some_lt hx
                rw [lset_length] at this
                exact this
              by_cases hieq : i = s.holderIndices orig - 1
              · rw [hieq, lget_set_same _ hiaL] at hx
                obtain rfl := Option.some.inj hx
                rw [upd_other _ _ _ hror, upd_same, hieq]
                omega
              · rw [lget_set_other _ _ (fun he => hieq he.symm)] at hx
                have hxo : x ≠ orig := by
                  intro he
                  rw [he] at hx
                  have := h1 i orig hx
                  have := h1 (s.holderIndices orig - 1) orig ha2
                  omega
                have hxr : x ≠ repl := by
                  intro he
                  rw [he] at hx
                  have := h1 i repl hx
                  omega
                rw [upd_other _ _ _ hxo, upd_other _ _ _ hxr]
                exact h1 i x hx
            · intro b hb
              dsimp only at hb ⊢
              by_cases hbo : b = orig
              · subst hbo
                rw [upd_same] at hb
                exact absurd rfl hb
              · rw [upd_other _ _ _ hbo] at hb ⊢
                by_cases hbr : b = repl
                · subst hbr
                  rw [upd_same] at hb ⊢
                  rw [hwia]
                  exact lget_set_same _ hiaL
                · rw [upd_other _ _ _ hbr] at hb ⊢
                  have hx := h2 b hb
                  have hbne : s.holderIndices b - 1 ≠ s.holderIndices orig - 1 := by
                    intro he
                    rw [he, ha2] at hx
                    exact hbo (Option.some.inj hx).symm
                  rw [hwia, lget_set_other _ _ (fun he => hbne he.symm)]
                  exact hx
            · intro x hx
              dsimp only at hx
              rcases lset_mem hx with hmem | hmem
              · exact h3 x hmem
              · exact hmem ▸ hrb
            · intro a ha
              dsimp only at ha ⊢
              by_cases hao : a = orig
              · subst hao
                rw [upd_same] at ha
                exact absurd rfl ha
              · rw [upd_other _ _ _ hao] at ha
                rw [upd_other _ _ _ hao]
                exact hv1 a ha
            · intro a ha
              dsimp only at ha
              by_cases hao : a = orig
              · subst hao
                rw [upd_same] at ha
                exact absurd rfl ha
              · rw [upd_other _ _ _ hao] at ha
                exact hv2 a ha
            · intro a
              dsimp only
              exact chainTerm_upd hT hror (hv1 repl hv) a
          next => exact absurd h (by simp)

theorem inv_addVerified {s s' : St} {a : Addr} {hh : Hash} (hI : Inv s)
    (h : addVerified s a hh = some s') : Inv s' := by
  obtain ⟨hw, ⟨hv1, hv2⟩, hT⟩ := hI
  simp only [addVerified] at h
  split at h
  next => exact absurd h (by simp)
  next hA =>
    split at h
    next => exact absurd h (by simp)
    next =>
      split at h
      next => exact absurd h (by simp)
      next hcanc =>
        split at h
        next => exact absurd h (by simp)
        next ha0 =>
          split at h
          next => exact absurd h (by simp)
          next =>
            split at h
            next => exact absurd h (by simp)
            next =>
              obtain rfl := Option.some.inj h
              rw [Decidable.not_not] at hcanc
              refine ⟨hw, ⟨?_, ?_⟩, hT⟩
              · intro x hx
                dsimp only at hx ⊢
                by_cases hxa : x = a
                · subst hxa
                  exact hcanc
                · rw [upd_other _ _ _ hxa] at hx
                  exact hv1 x hx
              · intro x hx
                dsimp only at hx
                by_cases hxa : x = a
                · subst hxa
                  exact ⟨Nat.pos_of_ne_zero ha0, Nat.not_le.mp hA⟩
                · rw [upd_other _ _ _ hxa] at hx
                  exact hv2 x hx

theorem inv_removeVerified {s s' : St} {a : Addr} (hI : Inv s)
    (h : removeVerified s a = some s') : Inv s' := by
  obtain ⟨hw, ⟨hv1, hv2⟩, hT⟩ := hI
  simp only [removeVerified] at h
  split at h
  next => exact absurd h (by simp)
  next =>
    split at h
    next => exact absurd h (by simp)
    next =>
      split at h
      next =>
        obtain rfl := Option.some.inj h
        refine ⟨hw, ⟨?_, ?_⟩, hT⟩
        · intro x hx
          dsimp only at hx ⊢
          by_cases hxa : x = a
          · subst hxa
            rw [upd_same] at hx
            exact absurd rfl hx
          · rw [upd_other _ _ _ hxa] at hx
            exact hv1 x hx
        · intro x hx
          dsimp only at hx
          by_cases hxa : x = a
          · subst hxa
            rw [upd_same] at hx
            exact absurd rfl hx
          · rw [upd_other _ _ _ hxa] at hx
            exact hv2 x hx
      next =>
        obtain rfl := Option.some.inj h
        exact ⟨hw, ⟨hv1, hv2⟩, hT⟩

theorem inv_updateVerified {s s' : St} {a : Addr} {hh : Hash} (hI : Inv s)
    (h : updateVerified s a hh = some s') : Inv s' := by
  obtain ⟨hw, ⟨hv1, hv2⟩, hT⟩ := hI
  simp only [updateVerified] at h
  split at h
  next => exact absurd h (by simp)
  next =>
    split at h
    next => exact absurd h (by simp)
    next hva =>
      split at h
      next => exact absurd h (by simp)
      next =>
        split at h
        next =>
          obtain rfl := Option.some.inj h
          refine ⟨hw, ⟨?_, ?_⟩, hT⟩
          · intro x hx
            dsimp only at hx ⊢
            by_cases hxa : x = a
            · subst hxa
              exact hv1 x hva
            · rw [upd_other _ _ _ hxa] at hx
              exact hv1 x hx
          · intro x hx
            dsimp only at hx
            by_cases hxa : x = a
            · subst hxa
              exact hv2 x hva
            · rw [upd_other _ _ _ hxa] at hx
              exact hv2 x hx
        next =>
          obtain rfl := Option.some.inj h
          exact ⟨hw, ⟨hv1, hv2⟩, hT⟩

theorem inv_mint {s s' : St} {dst : Addr} {amount : Nat} (hI : Inv s)
    (h : mint s dst amount = some s') : Inv s' := by
  simp only [mint] at h
  split at h
  next => exact absurd h (by simp)
  next =>
    split at h
    next => exact absurd h (by simp)
    next =>
      split at h
      next => exact absurd h (by simp)
      next hvd =>
        obtain ⟨f1, f2, f3, f4, _⟩ := mintBase_some_fields h
        exact inv_congr f4 f3 f1 f2 (inv_updateShareholders hI hvd)

theorem inv_transfer {s s' : St} {sender dst : Addr} {value : Nat} (hI : Inv s)
    (h : transfer s sender dst value = some s') : Inv s' := by
  simp only [transfer] at h
  split at h
  next => exact absurd h (by simp)
  next =>
    split at h
    next => exact absurd h (by simp)
    next =>
      split at h
      next => exact absurd h (by simp)
      next =>
        split at h
        next => exact absurd h (by simp)
        next hvd =>
          split at h
          next => exact absurd h (by simp)
          next s2 hp =>
            obtain ⟨f1, f2, f3, f4, _⟩ := basicTransfer_some_fields h
            exact inv_congr f4 f3 f1 f2 (inv_prune (inv_updateShareholders hI hvd) hp)

theorem inv_transferFrom {s s' : St} {caller srcA dst : Addr} {value : Nat} (hI : Inv s)
    (h : transferFrom s caller srcA dst value = some s') : Inv s' := by
  simp only [transferFrom] at h
  split at h
  next => exact absurd h (by simp)
  next =>
    split at h
    next => exact absurd h (by simp)
    next =>
      split at h
      next => exact absurd h (by simp)
      next =>
        split at h
        next => exact absurd h (by simp)
        next hvd =>
          split at h
          next => exact absurd h (by simp)
          next s2 hp =>
            obtain ⟨f1, f2, f3, f4, _⟩ := stdTransferFrom_some_fields h
            exact inv_congr f4 f3 f1 f2 (inv_prune (inv_updateShareholders hI hvd) hp)

theorem inv_masterTransfer {s s' : St} {srcA dst : Addr} {amount : Nat} (hI : Inv s)
    (h : masterTransfer s srcA dst amount = some s') : Inv s' := by
  simp only [masterTransfer] at h
  split at h
  next => exact absurd h (by simp)
  next =>
    split at h
    next => exact absurd h (by simp)
    next hvd =>
      split at h
      next => exact absurd h (by simp)
      next s2 hp =>
        obtain ⟨f1, f2, f3, f4, _⟩ := masterTransferBase_some_fields h
        exact inv_congr f4 f3 f1 f2 (inv_prune (inv_updateShareholders hI hvd) hp)

theorem inv_burn {s s' : St} {srcA : Addr} {amount : Nat} (hI : Inv s)
    (h : burn s srcA amount = some s') : Inv s' := by
  simp only [burn] at h
  split at h
  next => exact absurd h (by simp)
  next =>
    split at h
    next => exact absurd h (by simp)
    next s1 hp =>
      obtain ⟨f1, f2, f3, f4, _⟩ := burnBase_some_fields h
      exact inv_congr f4 f3 f1 f2 (inv_prune hI hp)

/-- Every successful call preserves the invariant. -/
theorem inv_exec {s s' : St} {op : Op} (hI : Inv s) (h : exec op s = some s') : Inv s' := by
  cases op with
  | mint dst amount => exact inv_mint hI h
  | transfer sender dst value => exact inv_transfer hI h
  | transferFrom caller srcA dst value => exact inv_transferFrom hI h
  | masterTransfer srcA dst amount => exact inv_masterTransfer hI h
  | burn srcA amount => exact inv_burn hI h
  | addVerified addr hh => exact inv_addVerified hI h
  | removeVerified addr => exact inv_removeVerified hI h
  | updateVerified addr hh => exact inv_updateVerified hI h
  | cancelAndReissue original replacement => exact inv_cancelAndReissue hI h
  | freeze =>
    simp only [exec, freeze] at h
    split at h
    next => exact absurd h (by simp)
    next =>
      split at h
      next =>
        simp only [Option.map_some'] at h
        obtain rfl := Option.some.inj h
        exact inv_congr rfl rfl rfl rfl hI
      next =>
        simp only [Option.map_some'] at h
        obtain rfl := Option.some.inj h
        exact inv_congr rfl rfl rfl rfl hI
  | freezeSuper =>
    simp only [exec, freezeSuper] at h
    split at h
    next => exact absurd h (by simp)
    next =>
      obtain rfl := Option.some.inj h
      exact inv_congr rfl rfl rfl rfl hI
  | lock addr =>
    simp only [exec, lock] at h
    split at h
    next => exact absurd h (by simp)
    next =>
      split at h
      next =>
        simp only [Option.map_some'] at h
        obtain rfl := Option.some.inj h
        exact inv_congr rfl rfl rfl rfl hI
      next =>
        simp only [Option.map_some'] at h
        obtain rfl := Option.some.inj h
        exact inv_congr rfl rfl rfl rfl hI
  | approve caller spender value =>
    simp only [exec, approve] at h
    obtain rfl := Option.some.inj h
    exact inv_congr rfl rfl rfl rfl hI
  | increaseApproval caller spender added =>
    simp only [exec, increaseApproval] at h
    split at h
    next => exact absurd h (by simp)
    next =>
      obtain rfl := Option.some.inj h
      exact inv_congr rfl rfl rfl rfl hI
  | decreaseApproval caller spender subtracted =>
    simp only [exec, decreaseApproval] at h
    split at h <;>
      (obtain rfl := Option.some.inj h; exact inv_congr rfl rfl rfl rfl hI)
  | finishMinting =>
    simp only [exec, finishMinting] at h
    split at h
    next => exact absurd h (by simp)
    next =>
      obtain rfl := Option.some.inj h
      exact inv_congr rfl rfl rfl rfl hI

/-- The invariant holds in every reachable state, for any allowed subset
of the entry points. -/
theorem inv_reachableFrom {allow : Op → Bool} {s : St} (h : ReachableFrom allow s) :
    Inv s := by
  induction h with
  | init => exact inv_init
  | step op hr hal hex ih => exact inv_exec ih hex

theorem sumOver_cons (b : Addr) (L : List Addr) (f : Addr → Nat) :
    sumOver (b :: L) f = f b + sumOver L f := rfl

theorem sumOver_upd_not_mem {L : List Addr} {f : Addr → Nat} {a : Addr} {v : Nat}
    (ha : a ∉ L) : sumOver L (upd f a v) = sumOver L f := by
  induction L with
  | nil => rfl
  | cons b L ih =>
    simp only [List.mem_cons, not_or] at ha
    rw [sumOver_cons, sumOver_cons, upd_other _ _ _ (fun he => ha.1 he.symm),
      ih ha.2]

theorem sumOver_upd_mem {L : List Addr} {f : Addr → Nat} {a : Addr} {v : Nat}
    (hN : L.Nodup) (ha : a ∈ L) : sumOver L (upd f a v) + f a = sumOver L f + v := by
  induction L with
  | nil => cases ha
  | cons b L ih =>
    rw [List.nodup_cons] at hN
    rw [sumOver_cons, sumOver_cons]
    rcases List.mem_cons.1 ha with hab | hmem
    · subst hab
      rw [upd_same, sumOver_upd_not_mem hN.1]
      omega
    · have hba : b ≠ a := by
        intro he
        rw [he] at hN
        exact hN.1 hmem
      rw [upd_other _ _ _ hba]
      have := ih hN.2 hmem
      omega

theorem sumOver_filter_zero (L : List Addr) (f : Addr → Nat) :
    sumOver (L.filter (fun a => f a != 0)) f = sumOver L f := by
  induction L with
  | nil => rfl
  | cons b L ih =>
    by_cases hb : f b = 0
    · simp [sumOver_cons, List.filter_cons, hb, ih]
    · simp [sumOver_cons, List.filter_cons, hb, ih]

theorem sumOver_eq_of_cover {f : Addr → Nat} {L1 L2 : List Addr}
    (h1 : L1.Nodup) (h2 : L2.Nodup)
    (c1 : ∀ a, f a ≠ 0 → a ∈ L1) (c2 : ∀ a, f a ≠ 0 → a ∈ L2) :
    sumOver L1 f = sumOver L2 f := by
  rw [← sumOver_filter_zero L1 f, ← sumOver_filter_zero L2 f]
  have hp : (L1.filter (fun a => f a != 0)).Perm (L2.filter (fun a => f a != 0)) := by
    refine (List.perm_ext_iff_of_nodup (h1.filter _) (h2.filter _)).2 ?_
    intro a
    simp only [List.mem_filter, bne_iff_ne, ne_eq]
    constructor
    · rintro ⟨_, hne⟩
      exact ⟨c2 a hne, hne⟩
    · rintro ⟨_, hne⟩
      exact ⟨c1 a hne, hne⟩
  exact (hp.map f).sum_eq

theorem addSupp_nodup {a : Addr} {L : List Addr} (h : L.Nodup) : (addSupp a L).Nodup := by
  unfold addSupp
  split
  · exact h
  · exact List.nodup_cons.2 ⟨by assumption, h⟩

theorem mem_addSupp_self (a : Addr) (L : List Addr) : a ∈ addSupp a L := by
  unfold addSupp
  split
  · assumption
  · exact List.mem_cons_self _ _

theorem mem_addSupp_of_mem (a : Addr) {x : Addr} {L : List Addr} (h : x ∈ L) :
    x ∈ addSupp a L := by
  unfold addSupp
  split
  · exact h
  · exact List.mem_cons_of_mem _ h

theorem mem_of_mem_addSupp {a x : Addr} {L : List Addr} (h : x ∈ addSupp a L) :
    x ∈ L ∨ x = a := by
  unfold addSupp at h
  split at h
  · exact Or.inl h
  · rcases List.mem_cons.1 h with he | hm
    · exact Or.inr he
    · exact Or.inl hm

theorem sumOver_addSupp {a : Addr} {L : List Addr} {f : Addr → Nat}
    (hcov : a ∉ L → f a = 0) : sumOver (addSupp a L) f = sumOver L f := by
  unfold addSupp
  split
  · rfl
  · rw [sumOver_cons, hcov (by assumption)]
    omega

theorem conserved_init : Conserved initSt := by
  refine ⟨rfl, [], List.nodup_nil, ?_, rfl⟩
  intro a h
  exact absurd rfl h

theorem conserved_congr {s s' : St} (hb : s'.balances = s.balances)
    (ht : s'.totalSupply = s.totalSupply) (hi : s'.issuedTotal = s.issuedTotal)
    (hbu : s'.burnedTotal = s.burnedTotal) (hC : Conserved s) : Conserved s' := by
  unfold Conserved
  rw [hb, ht, hi, hbu]
  exact hC

/-- Conservation step for a SafeMath credit of amount to dst. -/
theorem conserved_credit {bal : Addr → Nat} {L : List Addr} {T : Nat}
    (hN : L.Nodup) (hcov : ∀ a, bal a ≠ 0 → a ∈ L) (hsum : sumOver L bal = T)
    (dst : Addr) (amount : Nat) :
    ∃ L2 : List Addr, L2.Nodup ∧
      (∀ a, upd bal dst (bal dst + amount) a ≠ 0 → a ∈ L2) ∧
      sumOver L2 (upd bal dst (bal dst + amount)) = T + amount := by
  refine ⟨addSupp dst L, addSupp_nodup hN, ?_, ?_⟩
  · intro a ha
    by_cases had : a = dst
    · exact had ▸ mem_addSupp_self dst L
    · rw [upd_other _ _ _ had] at ha
      exact mem_addSupp_of_mem dst (hcov a ha)
  · have hbase : sumOver (addSupp dst L) bal = T := by
      rw [sumOver_addSupp (fun hd => by_contra fun hne => hd (hcov dst hne))]
      exact hsum
    have hm := sumOver_upd_mem (f := bal) (v := bal dst + amount)
      (addSupp_nodup hN) (mem_addSupp_self dst L)
    omega

/-- Conservation step for a balance move of value from sender to dst,
matching the sequential double update of the ERC-20 transfer bodies. -/
theorem conserved_move {bal : Addr → Nat} {L : List Addr} {T : Nat}
    (hN : L.Nodup) (hcov : ∀ a, bal a ≠ 0 → a ∈ L) (hsum : sumOver L bal = T)
    (sender dst : Addr) (value : Nat) (hv : value ≤ bal sender) :
    ∃ L2 : List Addr, L2.Nodup ∧
      (∀ a, upd (upd bal sender (bal sender - value)) dst
          (upd bal sender (bal sender - value) dst + value) a ≠ 0 → a ∈ L2) ∧
      sumOver L2 (upd (upd bal sender (bal sender - value)) dst
          (upd bal sender (bal sender - value) dst + value)) = T := by
  set b1 := upd bal sender (bal sender - value) with hb1
  refine ⟨addSupp dst (addSupp sender L), addSupp_nodup (addSupp_nodup hN), ?_, ?_⟩
  · intro a ha
    by_cases had : a = dst
    · exact had ▸ mem_addSupp_self dst _
    · rw [upd_other _ _ _ had] at ha
      by_cases has : a = sender
      · exact mem_addSupp_of_mem dst (has ▸ mem_addSupp_self sender L)
      · rw [hb1, upd_other _ _ _ has] at ha
        exact mem_addSupp_of_mem dst (mem_addSupp_of_mem sender (hcov a ha))
  · have hN2 : (addSupp dst (addSupp sender L)).Nodup := addSupp_nodup (addSupp_nodup hN)
    have hbase : sumOver (addSupp dst (addSupp sender L)) bal = T := by
      rw [sumOver_addSupp, sumOver_addSupp (fun hd => by_contra fun hne => hd (hcov sender hne))]
      · exact hsum
      · intro hd
        by_contra hne
        exact hd (mem_addSupp_of_mem sender (hcov dst hne))
    have hsmem : sender ∈ addSupp dst (addSupp sender L) :=
      mem_addSupp_of_mem dst (mem_addSupp_self sender L)
    have hdmem : dst ∈ addSupp dst (addSupp sender L) := mem_addSupp_self dst _
    have h1 := sumOver_upd_mem (f := bal) (v := bal sender - value) hN2 hsmem
    have h2 := sumOver_upd_mem (f := b1) (v := b1 dst + value) hN2 hdmem
    rw [← hb1] at h1
    omega

theorem safeAdd_some {a b c : Nat} (h : safeAdd a b = some c) : c = a + b ∧ a + b < W := by
  simp only [safeAdd] at h
  split at h
  · exact ⟨(Option.some.inj h).symm, by assumption⟩
  · exact absurd h (by simp)

theorem conserved_mintBase {s s' : St} {dst : Addr} {amount : Nat}
    (h : mintBase s dst amount = some s') (hC : Conserved s) : Conserved s' := by
  obtain ⟨h1, L, hN, hcov, hsum⟩ := hC
  simp only [mintBase] at h
  split at h
  next => exact absurd h (by simp)
  next =>
    split at h
    next => exact absurd h (by simp)
    next ts hts =>
      split at h
      next => exact absurd h (by simp)
      next bv hbv =>
        obtain rfl := Option.some.inj h
        obtain ⟨hts1, _⟩ := safeAdd_some hts
        obtain ⟨hbv1, _⟩ := safeAdd_some hbv
        subst hts1
        subst hbv1
        obtain ⟨L2, hN2, hcov2, hsum2⟩ := conserved_credit hN hcov hsum dst amount
        exact ⟨by dsimp only; omega, L2, hN2, hcov2, by dsimp only; omega⟩

theorem conserved_burnBase {s s' : St} {acct : Addr} {amount : Nat}
    (h : burnBase s acct amount = some s') (hC : Conserved s) : Conserved s' := by
  obtain ⟨h1, L, hN, hcov, hsum⟩ := hC
  simp only [burnBase] at h
  split at h
  next => exact absurd h (by simp)
  next =>
    split at h
    next => exact absurd h (by simp)
    next hbal =>
      split at h
      next => exact absurd h (by simp)
      next hts =>
        obtain rfl := Option.some.inj h
        rw [Nat.not_lt] at hbal hts
        refine ⟨by dsimp only; omega, addSupp acct L, addSupp_nodup hN, ?_, ?_⟩
        · intro a ha
          dsimp only at ha
          by_cases haa : a = acct
          · exact haa ▸ mem_addSupp_self acct L
          · rw [upd_other _ _ _ haa] at ha
            exact mem_addSupp_of_mem acct (hcov a ha)
        · dsimp only
          have hbase : sumOver (addSupp acct L) s.balances = s.totalSupply := by
            rw [sumOver_addSupp (fun hd => by_contra fun hne => hd (hcov acct hne))]
            exact hsum
          have hm := sumOver_upd_mem (f := s.balances) (v := s.balances acct - amount)
            (addSupp_nodup hN) (mem_addSupp_self acct L)
          omega

theorem conserved_basicTransfer {s s' : St} {sender dst : Addr} {value : Nat}
    (h : basicTransfer s sender dst value = some s') (hC : Conserved s) : Conserved s' := by
  obtain ⟨h1, L, hN, hcov, hsum⟩ := hC
  simp only [basicTransfer] at h
  split at h
  next => exact absurd h (by simp)
  next =>
    split at h
    next => exact absurd h (by simp)
    next hbal =>
      split at h
      next => exact absurd h (by simp)
      next bv hbv =>
        obtain rfl := Option.some.inj h
        obtain ⟨hbv1, _⟩ := safeAdd_some hbv
        subst hbv1
        rw [Nat.not_lt] at hbal
        obtain ⟨L2, hN2, hcov2, hsum2⟩ := conserved_move hN hcov hsum sender dst value hbal
        exact ⟨by dsimp only; omega, L2, hN2, hcov2, hsum2⟩

theorem conserved_stdTransferFrom {s s' : St} {caller srcA dst : Addr} {value : Nat}
    (h : stdTransferFrom s caller srcA dst value = some s') (hC : Conserved s) :
    Conserved s' := by
  obtain ⟨h1, L, hN, hcov, hsum⟩ := hC
  simp only [stdTransferFrom] at h
  split at h
  next => exact absurd h (by simp)
  next =>
    split at h
    next => exact absurd h (by simp)
    next hbal =>
      split at h
      next => exact absurd h (by simp)
      next =>
        split at h
        next => exact absurd h (by simp)
        next bv hbv =>
          obtain rfl := Option.some.inj h
          obtain ⟨hbv1, _⟩ := safeAdd_some hbv
          subst hbv1
          rw [Nat.not_lt] at hbal
          obtain ⟨L2, hN2, hcov2, hsum2⟩ := conserved_move hN hcov hsum srcA dst value hbal
          exact ⟨by dsimp only; omega, L2, hN2, hcov2, hsum2⟩

theorem conserved_masterTransferBase {s s' : St} {srcA dst : Addr} {amount : Nat}
    (h : masterTransferBase s srcA dst amount = some s') (hC : Conserved s) :
    Conserved s' := by
  obtain ⟨h1, L, hN, hcov, hsum⟩ := hC
  simp only [masterTransferBase] at h
  split at h
  next => exact absurd h (by simp)
  next hbal =>
    split at h
    next => exact absurd h (by simp)
    next bv hbv =>
      obtain rfl := Option.some.inj h
      obtain ⟨hbv1, _⟩ := safeAdd_some hbv
      subst hbv1
      rw [Nat.not_lt] at hbal
      obtain ⟨L2, hN2, hcov2, hsum2⟩ := conserved_move hN hcov hsum srcA dst amount hbal
      exact ⟨by dsimp only; omega, L2, hN2, hcov2, hsum2⟩

theorem addVerified_some_fields {s s' : St} {a : Addr} {hh : Hash}
    (h : addVerified s a hh = some s') :
    s'.balances = s.balances ∧ s'.totalSupply = s.totalSupply ∧
    s'.issuedTotal = s.issuedTotal ∧ s'.burnedTotal = s.burnedTotal ∧
    s'.closed = s.closed ∧ s'.mintingFinished = s.mintingFinished ∧
    s'.holderIndices = s.holderIndices ∧ s'.shareholders = s.shareholders ∧
    s'.cancellations = s.cancellations ∧ s'.frozen = s.frozen ∧
    s'.locked = s.locked ∧ s'.allowed = s.allowed := by
  simp only [addVerified] at h
  split at h
  next => exact absurd h (by simp)
  next =>
    split at h
    next => exact absurd h (by simp)
    next =>
      split at h
      next => exact absurd h (by simp)
      next =>
        split at h
        next => exact absurd h (by simp)
        next =>
          split at h
          next => exact absurd h (by simp)
          next =>
            split at h
            next => exact absurd h (by simp)
            next =>
              obtain rfl := Option.some.inj h
              exact ⟨rfl, rfl, rfl, rfl, rfl, rfl, rfl, rfl, rfl, rfl, rfl, rfl⟩

theorem removeVerified_some_fields {s s' : St} {a : Addr}
    (h : removeVerified s a = some s') :
    s'.balances = s.balances ∧ s'.totalSupply = s.totalSupply ∧
    s'.issuedTotal = s.issuedTotal ∧ s'.burnedTotal = s.burnedTotal := by
  simp only [removeVerified] at h
  split at h
  next => exact absurd h (by simp)
  next =>
    split at h
    next => exact absurd h (by simp)
    next =>
      split at h
      next =>
        obtain rfl := Option.some.inj h
        exact ⟨rfl, rfl, rfl, rfl⟩
      next =>
        obtain rfl := Option.some.inj h
        exact ⟨rfl, rfl, rfl, rfl⟩

theorem updateVerified_some_fields {s s' : St} {a : Addr} {hh : Hash}
    (h : updateVerified s a hh = some s') :
    s'.balances = s.balances ∧ s'.totalSupply = s.totalSupply ∧
    s'.issuedTotal = s.issuedTotal ∧ s'.burnedTotal = s.burnedTotal := by
  simp only [updateVerified] at h
  split at h
  next => exact absurd h (by simp)
  next =>
    split at h
    next => exact absurd h (by simp)
    next =>
      split at h
      next => exact absurd h (by simp)
      next =>
        split at h
        next =>
          obtain rfl := Option.some.inj h
          exact ⟨rfl, rfl, rfl, rfl⟩
        next =>
          obtain rfl := Option.some.inj h
          exact ⟨rfl, rfl, rfl, rfl⟩

/-- Every successful call other than cancelAndReissue preserves the
conservation invariant. -/
theorem conserved_exec {s s' : St} {op : Op} (hC : Conserved s)
    (hallow : noCR op = true) (h : exec op s = some s') : Conserved s' := by
  cases op with
  | mint dst amount =>
    simp only [exec, mint] at h
    split at h
    next => exact absurd h (by simp)
    next =>
      split at h
      next => exact absurd h (by simp)
      next =>
        split at h
        next => exact absurd h (by simp)
        next =>
          obtain ⟨f1, f2, _, _, _, _, f7, _, f9, f10, f11⟩ :=
            updateShareholders_fields s dst
          exact conserved_mintBase h (conserved_congr f7 f9 f10 f11 hC)
  | transfer sender dst value =>
    simp only [exec, transfer] at h
    split at h
    next => exact absurd h (by simp)
    next =>
      split at h
      next => exact absurd h (by simp)
      next =>
        split at h
        next => exact absurd h (by simp)
        next =>
          split at h
          next => exact absurd h (by simp)
          next =>
            split at h
            next => exact absurd h (by simp)
            next s2 hp =>
              obtain ⟨_, _, _, _, _, _, g7, _, g9, g10, g11⟩ := prune_some_fields hp
              obtain ⟨_, _, _, _, _, _, f7, _, f9, f10, f11⟩ :=
                updateShareholders_fields s dst
              exact conserved_basicTransfer h
                (conserved_congr (g7.trans f7) (g9.trans f9) (g10.trans f10)
                  (g11.trans f11) hC)
  | transferFrom caller srcA dst value =>
    simp only [exec, transferFrom] at h
    split at h
    next => exact absurd h (by simp)
    next =>
      split at h
      next => exact absurd h (by simp)
      next =>
        split at h
        next => exact absurd h (by simp)
        next =>
          split at h
          next => exact absurd h (by simp)
          next =>
            split at h
            next => exact absurd h (by simp)
            next s2 hp =>
              obtain ⟨_, _, _, _, _, _, g7, _, g9, g10, g11⟩ := prune_some_fields hp
              obtain ⟨_, _, _, _, _, _, f7, _, f9, f10, f11⟩ :=
                updateShareholders_fields s dst
              exact conserved_stdTransferFrom h
                (conserved_congr (g7.trans f7) (g9.trans f9) (g10.trans f10)
                  (g11.trans f11) hC)
  | masterTransfer srcA dst amount =>
    simp only [exec, masterTransfer] at h
    split at h
    next => exact absurd h (by simp)
    next =>
      split at h
      next => exact absurd h (by simp)
      next =>
        split at h
        next => exact absurd h (by simp)
        next s2 hp =>
          obtain ⟨_, _, _, _, _, _, g7, _, g9, g10, g11⟩ := prune_some_fields hp
          obtain ⟨_, _, _, _, _, _, f7, _, f9, f10, f11⟩ :=
            updateShareholders_fields s dst
          exact conserved_masterTransferBase h
            (conserved_congr (g7.trans f7) (g9.trans f9) (g10.trans f10)
              (g11.trans f11) hC)
  | burn srcA amount =>
    simp only [exec, burn] at h
    split at h
    next => exact absurd h (by simp)
    next =>
      split at h
      next => exact absurd h (by simp)
      next s1 hp =>
        obtain ⟨_, _, _, _, _, _, g7, _, g9, g10, g11⟩ := prune_some_fields hp
        exact conserved_burnBase h (conserved_congr g7 g9 g10 g11 hC)
  | addVerified addr hh =>
    obtain ⟨f1, f2, f3, f4, _⟩ := addVerified_some_fields h
    exact conserved_congr f1 f2 f3 f4 hC
  | removeVerified addr =>
    obtain ⟨f1, f2, f3, f4⟩ := removeVerified_some_fields h
    exact conserved_congr f1 f2 f3 f4 hC
  | updateVerified addr hh =>
    obtain ⟨f1, f2, f3, f4⟩ := updateVerified_some_fields h
    exact conserved_congr f1 f2 f3 f4 hC
  | cancelAndReissue original replacement => exact absurd hallow (by simp [noCR])
  | freeze =>
    simp only [exec, freeze] at h
    split at h
    next => exact absurd h (by simp)
    next =>
      split at h <;>
        · simp only [Option.map_some'] at h
          obtain rfl := Option.some.inj h
          exact conserved_congr rfl rfl rfl rfl hC
  | freezeSuper =>
    simp only [exec, freezeSuper] at h
    split at h
    next => exact absurd h (by simp)
    next =>
      obtain rfl := Option.some.inj h
      exact conserved_congr rfl rfl rfl rfl hC
  | lock addr =>
    simp only [exec, lock] at h
    split at h
    next => exact absurd h (by simp)
    next =>
      split at h <;>
        · simp only [Option.map_some'] at h
          obtain rfl := Option.some.inj h
          exact conserved_congr rfl rfl rfl rfl hC
  | approve caller spender value =>
    simp only [exec, approve] at h
    obtain rfl := Option.some.inj h
    exact conserved_congr rfl rfl rfl rfl hC
  | increaseApproval caller spender added =>
    simp only [exec, increaseApproval] at h
    split at h
    next => exact absurd h (by simp)
    next =>
      obtain rfl := Option.some.inj h
      exact conserved_congr rfl rfl rfl rfl hC
  | decreaseApproval caller spender subtracted =>
    simp only [exec, decreaseApproval] at h
    split at h <;>
      (obtain rfl := Option.some.inj h; exact conserved_congr rfl rfl rfl rfl hC)
  | finishMinting =>
    simp only [exec, finishMinting] at h
    split at h
    next => exact absurd h (by simp)
    next =>
      obtain rfl := Option.some.inj h
      exact conserved_congr rfl rfl rfl rfl hC

/-- The conservation invariant holds in every state reachable without
cancelAndReissue. -/
theorem conserved_reachable {s : St} (h : ReachableFrom noCR s) : Conserved s := by
  induction h with
  | init => exact conserved_init
  | step op hr hal hex ih => exact conserved_exec ih hal hex

/-- Once the chain from a reaches a terminal address within k hops, the
recursive resolution stabilises: any fuel of at least k + 1 returns the
same terminal address. -/
theorem findCurrentFor_stab (c : Addr → Addr) :
    ∀ (k : Nat) (a : Addr), c (c^[k] a) = 0 →
      ∃ b, c b = 0 ∧ ∀ fuel, k + 1 ≤ fuel → findCurrentFor c fuel a = b := by
  intro k
  induction k with
  | zero =>
    intro a ha
    rw [Function.iterate_zero_apply] at ha
    refine ⟨a, ha, ?_⟩
    intro fuel hf
    cases fuel with
    | zero => omega
    | succ m => simp [findCurrentFor, ha]
  | succ k ih =>
    intro a ha
    by_cases hca : c a = 0
    · refine ⟨a, hca, ?_⟩
      intro fuel hf
      cases fuel with
      | zero => omega
      | succ m => simp [findCurrentFor, hca]
    · rw [Function.iterate_succ_apply] at ha
      obtain ⟨b, hb, hstab⟩ := ih (c a) ha
      refine ⟨b, hb, ?_⟩
      intro fuel hf
      cases fuel with
      | zero => omega
      | succ m =>
        have hstep : findCurrentFor c (m + 1) a = findCurrentFor c m (c a) := by
          simp [findCurrentFor, hca]
        rw [hstep]
        exact hstab m (by omega)

/-- Claim C1 (shareholder-index consistency), evaluated at the failing
input. From the empty ledger the two calls addVerified(1, 5) and
mint(1, 0) both succeed: mint first registers address 1 in the
shareholder index via updateShareholders and only then credits the zero
amount, so the reachable state c1St has isHolder(1) = true while
balanceOf(1) = 0. This refutes the claimed equivalence
isHolder(A) = (balanceOf(A) > 0) over reachable states (the same index
drift is reachable through a transfer of amount 0 to a fresh verified
address, and conversely a self-transfer of a full balance removes a
positive-balance holder from the index). -/
theorem mint_zero_breaks_holder_invariant :
    execTrace c1Trace initSt = some c1St ∧
    isHolder c1St 1 = true ∧ c1St.balances 1 = 0 :=
  ⟨rfl, by decide, by decide⟩

/-- Claim C4 counterexample: c4Trace reaches a state where address 1 has
exactly one cancellation hop (isSuperseded holds) and getCurrentFor
resolves it to address 2, but the verification of address 2 has
meanwhile been removed by removeVerified, so the returned address is not
currently verified. -/
theorem getCurrentFor_returns_unverified :
    execTrace c4Trace initSt = some c4St ∧
    isSuperseded c4St 1 = true ∧
    getCurrentFor c4St 5 1 = 2 ∧
    isVerified c4St 2 = false :=
  ⟨rfl, by decide, by decide, by decide⟩

/-- Claim C4 as amended: in every reachable state every cancellation
chain is finite and acyclic, so getCurrentFor terminates: following
cancellations from any address reaches an address with no cancellation
record in finitely many hops, and the recursive resolution stabilises on
that terminal address for every sufficient recursion depth. The terminal
address is not itself cancelled; it was verified when the final hop was
recorded, but need not be currently verified, since removeVerified can
clear the fingerprint of an emptied endpoint afterwards. -/
theorem cancellationChain_terminates {s : St} (hs : Reachable s) (a : Addr) :
    (∃ n, s.cancellations (s.cancellations^[n] a) = 0) ∧
    ∃ b N, s.cancellations b = 0 ∧
      ∀ fuel, N ≤ fuel → getCurrentFor s fuel a = b := by
  obtain ⟨_, _, hT⟩ := inv_reachableFrom hs
  obtain ⟨n, hn⟩ := hT a
  obtain ⟨b, hb, hstab⟩ := findCurrentFor_stab s.cancellations n a hn
  exact ⟨⟨n, hn⟩, b, n + 1, hb, hstab⟩

/-- Witness for the amended claim C4 at the reachable state c4St and
address 1. -/
theorem cancellationChain_terminates_witness :
    (∃ n, c4St.cancellations (c4St.cancellations^[n] 1) = 0) ∧
    ∃ b N, c4St.cancellations b = 0 ∧
      ∀ fuel, N ≤ fuel → getCurrentFor c4St fuel 1 = b :=
  cancellationChain_terminates
    (reachable_of_execTrace c4Trace (fun _ _ => rfl) ReachableFrom.init rfl) 1

/-- Claim C6 (verification gate): whatever the state, the caller and the
amount, a transfer or transferFrom towards an unverified receiver
reverts (returns none, so every balance is left unchanged), and so does
mint towards an unverified receiver. -/
theorem verification_gate (s : St) (caller sender srcA dst : Addr)
    (value amount : Nat) (h : s.verified dst = 0) :
    transfer s sender dst value = none ∧
    transferFrom s caller srcA dst value = none ∧
    mint s dst amount = none := by
  refine ⟨?_, ?_, ?_⟩
  · simp [transfer, h, ite_self]
  · simp [transferFrom, h, ite_self]
  · simp [mint, h, ite_self]

/-- Witness for claim C6: in the fresh state, address 3 is unverified and
all three calls towards it revert. -/
theorem verification_gate_witness :
    transfer initSt 1 3 0 = none ∧
    transferFrom initSt 1 2 3 0 = none ∧
    mint initSt 3 4 = none :=
  verification_gate initSt 1 1 2 3 0 4 (by decide)

/-- Claim C8, evaluated at the failing input (code bug in part_008).
Calling lock on the unlocked address 1 of the fresh, not closed, state
does toggle the flag (isLocked becomes true and the returned Bool is the
negation of the prior value), but the emitted event is Unlock, whose
documented meaning is that the address is being unlocked; symmetrically
a second lock call emits Lock while clearing the flag. The emitted event
therefore denotes the opposite of the new lock state. -/
theorem lock_event_inverted :
    (lock initSt 1).map (fun r => r.2) = some (LockEvent.unlockEvt 1, true) ∧
    (lock initSt 1).map (fun r => isLocked r.1 1) = some true :=
  ⟨rfl, rfl⟩

/-- Claim C9 counterexample: the hasHash variant of
src/contracts/SecurityToken.sol reverts on the null address instead of
returning false, so the claim is false of that cited variant. -/
theorem hasHashV2_null_reverts : hasHashV2 initSt 0 5 = none := rfl

/-- Claim C9 as amended: the part_008 hasHash query returns false on the
null (zero) address for every stored state and every hash, and being a
pure function of the state it mutates nothing; the
src/contracts/SecurityToken.sol variant instead reverts there. -/
theorem hasHash_null_false (s : St) (h : Hash) : hasHash s 0 h = false := by
  simp [hasHash]

/-- Claim C2 (conservation): in every state reachable from the empty
ledger by successful calls other than cancelAndReissue - in particular
by every sequence of successful mint/issue, transfer, transferFrom and
burn calls - the ghost totals satisfy
sum(balances) = issuedTotal - burnedTotal = totalSupply, the sum being
taken over any duplicate-free list of addresses covering the support of
the balance map. -/
theorem conservation_invariant {s : St} (hs : ReachableFrom noCR s) :
    s.burnedTotal ≤ s.issuedTotal ∧
    s.totalSupply = s.issuedTotal - s.burnedTotal ∧
    ∀ L : List Addr, L.Nodup → (∀ a, s.balances a ≠ 0 → a ∈ L) →
      sumOver L s.balances = s.issuedTotal - s.burnedTotal ∧
      sumOver L s.balances = s.totalSupply := by
  obtain ⟨h1, L0, hN0, hcov0, hsum0⟩ := conserved_reachable hs
  refine ⟨by omega, by omega, ?_⟩
  intro L hN hcov
  have he := sumOver_eq_of_cover hN hN0 hcov hcov0
  constructor <;> omega

/-- Witness for claim C2 on the concrete five-call trace c2Trace: after
issuing 3, transferring 1 and burning 1, the sum of the balances over
the support list 1, 2 equals issued minus burned and the total
supply. -/
theorem conservation_invariant_witness :
    c2St.burnedTotal ≤ c2St.issuedTotal ∧
    c2St.totalSupply = c2St.issuedTotal - c2St.burnedTotal ∧
    (sumOver [1, 2] c2St.balances = c2St.issuedTotal - c2St.burnedTotal ∧
     sumOver [1, 2] c2St.balances = c2St.totalSupply) := by
  have hr : ReachableFrom noCR c2St :=
    reachable_of_execTrace c2Trace (by decide) ReachableFrom.init rfl
  obtain ⟨w1, w2, w3⟩ := conservation_invariant hr
  refine ⟨w1, w2, w3 [1, 2] (by decide) ?_⟩
  intro a ha
  have hbal : c2St.balances = upd (upd (upd (upd (fun _ => 0) 1 3) 1 2) 2 1) 2 0 := rfl
  rw [hbal] at ha
  by_cases ha1 : a = 1
  · simp [ha1]
  · by_cases ha2 : a = 2
    · simp [ha2]
    · exfalso
      apply ha
      simp [upd, ha1, ha2]

/-- Claim C3 (cancelAndReissue splice): in every reachable, not closed
state where original is a shareholder and replacement is verified, not a
shareholder and holds zero balance, the administrator call
cancelAndReissue(original, replacement) succeeds - with no hypothesis at
all on the frozen flag or on the lock state of either address - and
leaves original unverified with a zero balance, gives replacement
exactly the prior balance of original in the former shareholder-index
slot of original, records the cancellation so that getCurrentFor
resolves original to replacement, and leaves the frozen flag and the
lock map untouched. -/
theorem cancelAndReissue_splice {s : St} (original replacement : Addr)
    (hs : Reachable s) (hcl : s.closed = false)
    (ho : s.holderIndices original ≠ 0) (hr : s.holderIndices replacement = 0)
    (hv : s.verified replacement ≠ 0) (_hb : s.balances replacement = 0) :
    ∃ s', cancelAndReissue s original replacement = some s' ∧
      s'.verified original = 0 ∧
      s'.balances original = 0 ∧
      s'.balances replacement = s.balances original ∧
      s'.shareholders.get? (s.holderIndices original - 1) = some replacement ∧
      s'.cancellations original = replacement ∧
      (∀ fuel, 2 ≤ fuel → getCurrentFor s' fuel original = replacement) ∧
      s'.frozen = s.frozen ∧ s'.locked = s.locked := by
  obtain ⟨⟨h1, h2, h3⟩, ⟨hv1, hv2⟩, hT⟩ := inv_reachableFrom hs
  have hlenA : s.shareholders.length ≤ A160 := length_le_A160 ⟨h1, h2, h3⟩
  have ha2 := h2 original ho
  have hiaL : s.holderIndices original - 1 < s.shareholders.length := lget_some_lt ha2
  have hiaW : s.holderIndices original < W := by
    have := a160_lt_w
    omega
  have hwia : wsub (s.holderIndices original) 1 = s.holderIndices original - 1 :=
    wsub_one (by omega) hiaW
  have hror : replacement ≠ original := by
    intro he
    rw [he] at hr
    exact ho hr
  have hrb := hv2 replacement hv
  have hrne : replacement ≠ 0 := Nat.pos_iff_ne_zero.mp hrb.1
  have hcr : s.cancellations replacement = 0 := hv1 replacement hv
  have hsucc : cancelAndReissue s original replacement = some
      { s with
        verified := upd s.verified original 0
        cancellations := upd s.cancellations original replacement
        shareholders := s.shareholders.set (s.holderIndices original - 1) replacement
        holderIndices :=
          upd (upd s.holderIndices replacement (s.holderIndices original)) original 0
        balances := upd (upd s.balances replacement (s.balances original)) original 0 } := by
    simp [cancelAndReissue, hcl, ho, hr, hv, hwia, hiaL]
  refine ⟨_, hsucc, upd_same _ _ _, upd_same _ _ _, ?_, ?_, ?_, ?_, rfl, rfl⟩
  · dsimp only
    rw [upd_other _ _ _ hror]
    exact upd_same _ _ _
  · dsimp only
    exact lget_set_same _ hiaL
  · dsimp only
    exact upd_same _ _ _
  · intro fuel hf
    have hco : (upd s.cancellations original replacement) original = replacement :=
      upd_same _ _ _
    have hcrr : (upd s.cancellations original replacement) replacement = 0 := by
      rw [upd_other _ _ _ hror]
      exact hcr
    match fuel, hf with
    | m + 2, _ =>
      show findCurrentFor (upd s.cancellations original replacement) (m + 2) original
        = replacement
      rw [show findCurrentFor (upd s.cancellations original replacement) (m + 2) original
          = if (upd s.cancellations original replacement) original = 0 then original
            else findCurrentFor (upd s.cancellations original replacement) (m + 1)
              ((upd s.cancellations original replacement) original) from rfl]
      rw [hco, if_neg hrne]
      rw [show findCurrentFor (upd s.cancellations original replacement) (m + 1) replacement
          = if (upd s.cancellations original replacement) replacement = 0 then replacement
            else findCurrentFor (upd s.cancellations original replacement) m
              ((upd s.cancellations original replacement) replacement) from rfl]
      rw [hcrr]
      simp

/-- Witness for claim C3: the reachable state c3St with original 1
(holding 3 shares) and replacement 2 (verified, empty). -/
theorem cancelAndReissue_splice_witness :
    ∃ s', cancelAndReissue c3St 1 2 = some s' ∧
      s'.verified 1 = 0 ∧
      s'.balances 1 = 0 ∧
      s'.balances 2 = c3St.balances 1 ∧
      s'.shareholders.get? (c3St.holderIndices 1 - 1) = some 2 ∧
      s'.cancellations 1 = 2 ∧
      (∀ fuel, 2 ≤ fuel → getCurrentFor s' fuel 1 = 2) ∧
      s'.frozen = c3St.frozen ∧ s'.locked = c3St.locked :=
  cancelAndReissue_splice 1 2
    (reachable_of_execTrace c3Trace (fun _ _ => rfl) ReachableFrom.init rfl)
    (by decide) (by decide) (by decide) (by decide) (by decide)

/-- Claim C5 (monotonic terminal closure): (a) no successful call ever
clears the closed flag; (b) a successful freezeSuper sets both closed
and frozen; (c) once closed, every mint, freeze, lock, addVerified,
removeVerified, updateVerified, burn, cancelAndReissue, masterTransfer
and freezeSuper call is rejected (transfers are additionally dead
because frozen is set and freeze can no longer clear it); (d) the
read-only queries never consult the closed flag: on any state they agree
with the same state viewed with closed cleared. -/
theorem closed_monotonic_terminal :
    (∀ (op : Op) (s s' : St), exec op s = some s' → s.closed = true → s'.closed = true) ∧
    (∀ s s' : St, freezeSuper s = some s' → s'.closed = true ∧ s'.frozen = true) ∧
    (∀ s : St, s.closed = true →
      (∀ dst amount, mint s dst amount = none) ∧
      freeze s = none ∧
      (∀ a, lock s a = none) ∧
      (∀ a hh, addVerified s a hh = none) ∧
      (∀ a, removeVerified s a = none) ∧
      (∀ a hh, updateVerified s a hh = none) ∧
      (∀ a v, burn s a v = none) ∧
      (∀ o r, cancelAndReissue s o r = none) ∧
      (∀ srcA dst v, masterTransfer s srcA dst v = none) ∧
      freezeSuper s = none) ∧
    (∀ (s : St) (a : Addr) (hh : Hash) (i fuel : Nat),
      isVerified s a = isVerified (openView s) a ∧
      isHolder s a = isHolder (openView s) a ∧
      hasHash s a hh = hasHash (openView s) a hh ∧
      isSuperseded s a = isSuperseded (openView s) a ∧
      isLocked s a = isLocked (openView s) a ∧
      holderCount s = holderCount (openView s) ∧
      holderAt s i = holderAt (openView s) i ∧
      getCurrentFor s fuel a = getCurrentFor (openView s) fuel a) := by
  refine ⟨?_, ?_, ?_, ?_⟩
  · intro op s s' h hc
    cases op with
    | mint dst amount => simp [exec, mint, hc, ite_self] at h
    | transfer sender dst value =>
      simp only [exec, transfer] at h
      split at h
      next => exact absurd h (by simp)
      next =>
        split at h
        next => exact absurd h (by simp)
        next =>
          split at h
          next => exact absurd h (by simp)
          next =>
            split at h
            next => exact absurd h (by simp)
            next =>
              split at h
              next => exact absurd h (by simp)
              next s2 hp =>
                rw [(basicTransfer_some_fields h).2.2.2.2.2.2.1,
                  (prune_some_fields hp).2.2.2.2.1,
                  (updateShareholders_fields s dst).2.2.2.2.1]
                exact hc
    | transferFrom caller srcA dst value =>
      simp only [exec, transferFrom] at h
      split at h
      next => exact absurd h (by simp)
      next =>
        split at h
        next => exact absurd h (by simp)
        next =>
          split at h
          next => exact absurd h (by simp)
          next =>
            split at h
            next => exact absurd h (by simp)
            next =>
              split at h
              next => exact absurd h (by simp)
              next s2 hp =>
                rw [(stdTransferFrom_some_fields h).2.2.2.2.2.2.1,
                  (prune_some_fields hp).2.2.2.2.1,
                  (updateShareholders_fields s dst).2.2.2.2.1]
                exact hc
    | masterTransfer srcA dst amount => simp [exec, masterTransfer, hc, ite_self] at h
    | burn srcA amount => simp [exec, burn, hc, ite_self] at h
    | addVerified addr hh => simp [exec, addVerified, hc, ite_self] at h
    | removeVerified addr => simp [exec, removeVerified, hc, ite_self] at h
    | updateVerified addr hh => simp [exec, updateVerified, hc, ite_self] at h
    | cancelAndReissue o r => simp [exec, cancelAndReissue, hc, ite_self] at h
    | freeze => simp [exec, freeze, hc] at h
    | freezeSuper => simp [exec, freezeSuper, hc] at h
    | lock addr => simp [exec, lock, hc] at h
    | approve caller spender value =>
      simp only [exec, approve] at h
      obtain rfl := Option.some.inj h
      exact hc
    | increaseApproval caller spender added =>
      simp only [exec, increaseApproval] at h
      split at h
      next => exact absurd h (by simp)
      next =>
        obtain rfl := Option.some.inj h
        exact hc
    | decreaseApproval caller spender subtracted =>
      simp only [exec, decreaseApproval] at h
      split at h <;> (obtain rfl := Option.some.inj h; exact hc)
    | finishMinting =>
      simp only [exec, finishMinting] at h
      split at h
      next => exact absurd h (by simp)
      next =>
        obtain rfl := Option.some.inj h
        exact hc
  · intro s s' h
    simp only [freezeSuper] at h
    split at h
    next => exact absurd h (by simp)
    next =>
      obtain rfl := Option.some.inj h
      exact ⟨rfl, rfl⟩
  · intro s hc
    refine ⟨?_, ?_, ?_, ?_, ?_, ?_, ?_, ?_, ?_, ?_⟩
    · intro dst amount
      simp [mint, hc, ite_self]
    · simp [freeze, hc]
    · intro a
      simp [lock, hc]
    · intro a hh
      simp [addVerified, hc, ite_self]
    · intro a
      simp [removeVerified, hc, ite_self]
    · intro a hh
      simp [updateVerified, hc, ite_self]
    · intro a v
      simp [burn, hc, ite_self]
    · intro o r
      simp [cancelAndReissue, hc, ite_self]
    · intro srcA dst v
      simp [masterTransfer, hc, ite_self]
    · simp [freezeSuper, hc]
  · intro s a hh i fuel
    exact ⟨rfl, rfl, rfl, rfl, rfl, rfl, rfl, rfl⟩

/-- Witness for claim C5 on the closed state reached by freezeSuper from
the fresh contract: the flag is set, every listed mutator is rejected,
the reads agree with the open view, and a further successful call
(approve, which the closed flag does not guard) keeps closed set. -/
theorem closed_monotonic_terminal_witness :
    exec Op.freezeSuper initSt = some c5St ∧ c5St.closed = true ∧
    c5St.frozen = true ∧
    mint c5St 1 5 = none ∧ freeze c5St = none ∧ lock c5St 1 = none ∧
    addVerified c5St 1 5 = none ∧ removeVerified c5St 1 = none ∧
    updateVerified c5St 1 5 = none ∧ burn c5St 1 0 = none ∧
    cancelAndReissue c5St 1 2 = none ∧ masterTransfer c5St 1 2 0 = none ∧
    freezeSuper c5St = none ∧
    isHolder c5St 1 = isHolder (openView c5St) 1 ∧
    exec (Op.approve 1 2 3) c5St = some c5St2 ∧ c5St2.closed = true := by
  have h := closed_monotonic_terminal
  have hc : c5St.closed = true := by decide
  have hrej := h.2.2.1 c5St hc
  exact ⟨rfl, hc, by decide, hrej.1 1 5, hrej.2.1, hrej.2.2.1 1,
    hrej.2.2.2.1 1 5, hrej.2.2.2.2.1 1, hrej.2.2.2.2.2.1 1 5,
    hrej.2.2.2.2.2.2.1 1 0, hrej.2.2.2.2.2.2.2.1 1 2,
    hrej.2.2.2.2.2.2.2.2.1 1 2 0, hrej.2.2.2.2.2.2.2.2.2,
    (h.2.2.2 c5St 1 5 0 0).2.1, rfl,
    h.1 (Op.approve 1 2 3) c5St c5St2 rfl hc⟩

/-- When an address has shareholder index zero and the debited value
equals its full balance, pruneShareholders computes a wrapped holder
index of 2 ^ 256 - 1 (and, on an empty array, a wrapped last index), so
the array access reverts: the call returns none. -/
theorem prune_none_of_not_holder {s : St} (A : Addr) (v : Nat)
    (hlen : s.shareholders.length + 1 < W) (h0 : s.holderIndices A = 0)
    (hv : v = s.balances A) : pruneShareholders s A v = none := by
  subst hv
  simp only [pruneShareholders, wsub_self, Nat.lt_irrefl, if_false, h0, wsub_zero_one]
  cases hg : s.shareholders.get? (wsub s.shareholders.length 1) with
  | none => simp [hg]
  | some lh =>
    simp only [hg]
    rw [if_neg (Nat.not_lt.2 (Nat.le_sub_one_of_lt (Nat.lt_of_succ_lt hlen)))]

/-- Claim C7 as amended: in every reachable state, for every address A
with shareholder index zero, every transfer, transferFrom or
masterTransfer debiting A of exactly its balance towards a recipient
other than A, and every burn debiting A of exactly its balance, reverts
inside pruneShareholders (wrapped-index array access), even though the
balance precondition value less-or-equal balance holds; when the
recipient is A itself the preceding updateShareholders call first
registers A, so such a call can succeed (see the counterexample). -/
theorem prune_underflow_reverts {s : St} (hs : Reachable s)
    (A caller dst : Addr) (v : Nat) (h0 : s.holderIndices A = 0)
    (hv : v = s.balances A) (hdst : dst ≠ A) :
    transfer s A dst v = none ∧
    transferFrom s caller A dst v = none ∧
    masterTransfer s A dst v = none ∧
    burn s A v = none := by
  obtain ⟨hw, _, _⟩ := inv_reachableFrom hs
  have hlenA := length_le_A160 hw
  have hs1len : (updateShareholders s dst).shareholders.length
      ≤ s.shareholders.length + 1 := by
    unfold updateShareholders
    split <;> simp
  have hs1hi : (updateShareholders s dst).holderIndices A = 0 := by
    unfold updateShareholders
    split
    · dsimp only
      rw [upd_other _ _ _ (fun he => hdst he.symm)]
      exact h0
    · exact h0
  have hs1bal : (updateShareholders s dst).balances A = s.balances A := by
    rw [(updateShareholders_fields s dst).2.2.2.2.2.2.1]
  have hlen1 : (updateShareholders s dst).shareholders.length + 1 < W :=
    Nat.lt_of_le_of_lt
      (by
        have h2 := Nat.add_le_add_right hlenA 2
        omega)
      a160_add2_lt_w
  have hlen0 : s.shareholders.length + 1 < W :=
    Nat.lt_of_le_of_lt (by
      have h2 := Nat.add_le_add_right hlenA 2
      omega) a160_add2_lt_w
  have hpr : pruneShareholders (updateShareholders s dst) A v = none :=
    prune_none_of_not_holder A v hlen1 hs1hi (by rw [hs1bal]; exact hv)
  have hprs : pruneShareholders s A v = none :=
    prune_none_of_not_holder A v hlen0 h0 hv
  refine ⟨?_, ?_, ?_, ?_⟩
  · simp [transfer, hpr, ite_self]
  · simp [transferFrom, hpr, ite_self]
  · simp [masterTransfer, hpr, ite_self]
  · simp [burn, hprs, ite_self]

/-- Witness for the amended claim C7 at the reachable state c7St:
address 1 is verified but not a holder, its balance is 0, and all four
debits of its full balance towards the distinct address 2 revert. -/
theorem prune_underflow_reverts_witness :
    transfer c7St 1 2 0 = none ∧
    transferFrom c7St 3 1 2 0 = none ∧
    masterTransfer c7St 1 2 0 = none ∧
    burn c7St 1 0 = none := by
  have hres := prune_underflow_reverts
    (reachable_of_execTrace c7Trace (fun _ _ => rfl) ReachableFrom.init rfl)
    1 3 2 0 (by decide) (by decide) (by decide)
  exact hres

/-- Claim C7 counterexample: in the same reachable state c7St (address 1
verified, not a holder, zero balance), the self-transfer
transfer(to = 1, value = 0) sent by address 1 debits address 1 of
exactly its balance and succeeds, because updateShareholders registers
address 1 before pruneShareholders runs: the claim as stated, which
asserts that every such call throws, is false. -/
theorem prune_self_transfer_succeeds :
    execTrace c7Trace initSt = some c7St ∧
    c7St.holderIndices 1 = 0 ∧ c7St.balances 1 = 0 ∧
    (transfer c7St 1 1 0).isSome = true :=
  ⟨rfl, by decide, by decide, by decide⟩

theorem addVerified_none_of_verified {l : St} {addr : Addr} {h2 : Hash}
    (hv : l.verified addr ≠ 0) : addVerified l addr h2 = none := by
  simp [addVerified, hv, ite_self]

/-- Claim C10 (migrateRecord): with the controller deployed, not
migrated and not closed, and the ledger open with the address never
verified and not cancelled, migrate(addr, rawInfo, balance) stores the
fingerprint via addVerified and mints exactly the balance when it is
positive (and nothing otherwise); calling it a second time for the same
address - with any raw info and balance - fails on the addVerified step
because the address is now verified, and the revert (none) leaves both
the controller state and the ledger state unchanged. -/
theorem ctrlMigrate_idempotent_fail (kec : Info → Hash) (c : Ctrl) (l : St)
    (addr : Addr) (dat dat2 : Info) (balance balance2 : Nat)
    (hd : c.deployed = true) (hm : c.migrated = false) (hcc : c.closed = false)
    (hlc : l.closed = false) (hmf : l.mintingFinished = false)
    (ha0 : addr ≠ 0) (haA : addr < A160)
    (hcanc : l.cancellations addr = 0) (hnv : l.verified addr = 0)
    (hk : kec dat ≠ 0)
    (hts : l.totalSupply + balance < W) (hbal : l.balances addr + balance < W) :
    ∃ l1, ctrlMigrate kec c l addr dat balance = some (c, l1) ∧
      l1.verified addr = kec dat ∧
      l1.balances addr = l.balances addr + balance ∧
      l1.totalSupply = l.totalSupply + balance ∧
      ctrlMigrate kec c l1 addr dat2 balance2 = none := by
  have hav : addVerified l addr (kec dat) =
      some { l with verified := upd l.verified addr (kec dat) } := by
    simp [addVerified, hlc, hcanc, ha0, hk, hnv, Nat.not_le.2 haA]
  set lv : St := { l with verified := upd l.verified addr (kec dat) } with hlv
  have e1 : lv.mintingFinished = false := hmf
  have e2 : lv.closed = false := hlc
  have e3 : lv.verified addr = kec dat := upd_same _ _ _
  by_cases hbp : 0 < balance
  · obtain ⟨u1, u2, u3, u4, u5, u6, u7, u8, u9, u10, u11⟩ :=
      updateShareholders_fields lv addr
    have e4 : safeAdd (updateShareholders lv addr).totalSupply balance
        = some (l.totalSupply + balance) := by
      rw [u9]
      show safeAdd l.totalSupply balance = _
      simp [safeAdd, hts]
    have e5 : safeAdd ((updateShareholders lv addr).balances addr) balance
        = some (l.balances addr + balance) := by
      rw [u7]
      show safeAdd (l.balances addr) balance = _
      simp [safeAdd, hbal]
    have hb1 : ¬ (lv.mintingFinished = true) := by
      rw [e1]
      exact Bool.false_ne_true
    have hb2 : ¬ (lv.closed = true) := by
      rw [e2]
      exact Bool.false_ne_true
    have hv3 : ¬ (lv.verified addr = 0) := by
      rw [e3]
      exact hk
    have hb4 : ¬ ((updateShareholders lv addr).mintingFinished = true) := by
      rw [u6, e1]
      exact Bool.false_ne_true
    have hmint : mint lv addr balance = some
        { updateShareholders lv addr with
          totalSupply := l.totalSupply + balance
          balances := upd (updateShareholders lv addr).balances addr
            (l.balances addr + balance)
          issuedTotal := (updateShareholders lv addr).issuedTotal + balance } := by
      unfold mint
      rw [if_neg hb1, if_neg hb2, if_neg hv3]
      unfold mintBase
      rw [if_neg hb4, e4, e5]
    refine ⟨{ updateShareholders lv addr with
        totalSupply := l.totalSupply + balance
        balances := upd (updateShareholders lv addr).balances addr
          (l.balances addr + balance)
        issuedTotal := (updateShareholders lv addr).issuedTotal + balance },
      ?_, ?_, ?_, ?_, ?_⟩
    · simp [ctrlMigrate, hcc, hd, hm, hav, hmint, hbp]
    · show (updateShareholders lv addr).verified addr = kec dat
      rw [u1]
      exact e3
    · exact upd_same _ _ _
    · rfl
    · have h2v : ({ updateShareholders lv addr with
          totalSupply := l.totalSupply + balance
          balances := upd (updateShareholders lv addr).balances addr
            (l.balances addr + balance)
          issuedTotal := (updateShareholders lv addr).issuedTotal + balance } : St).verified addr
          ≠ 0 := by
        show (updateShareholders lv addr).verified addr ≠ 0
        rw [u1, e3]
        exact hk
      simp [ctrlMigrate, hcc, hd, hm, addVerified_none_of_verified h2v]
  · have hb0 : balance = 0 := by omega
    refine ⟨lv, ?_, e3, ?_, ?_, ?_⟩
    · simp [ctrlMigrate, hcc, hd, hm, hav, hbp]
    · show l.balances addr = l.balances addr + balance
      omega
    · show l.totalSupply = l.totalSupply + balance
      omega
    · have h2v : lv.verified addr ≠ 0 := by
        rw [e3]
        exact hk
      simp [ctrlMigrate, hcc, hd, hm, addVerified_none_of_verified h2v]

/-- Witness for claim C10: fresh ledger, deployed controller, address 1,
raw data 4 (fingerprint 5), balance 3; the second call with raw data 9
and balance 7 reverts. -/
theorem ctrlMigrate_idempotent_fail_witness :
    ∃ l1, ctrlMigrate c10Kec c10Ctrl initSt 1 4 3 = some (c10Ctrl, l1) ∧
      l1.verified 1 = c10Kec 4 ∧
      l1.balances 1 = initSt.balances 1 + 3 ∧
      l1.totalSupply = initSt.totalSupply + 3 ∧
      ctrlMigrate c10Kec c10Ctrl l1 1 9 7 = none :=
  ctrlMigrate_idempotent_fail c10Kec c10Ctrl initSt 1 4 9 3 7 rfl rfl rfl rfl rfl
    (by decide) (by decide) rfl rfl (by decide) (by decide) (by decide)

end Tokenise
